import Mathlib

/-!
# Verification of the `peds` persistent collection library

This file shallowly embeds the Go sources of the `peds` repository
(persistent bit-partitioned-trie vector, vector slices, and a
hash-bucket persistent map built on the vector) into Lean and proves
the specification claims about them.

Conventions of the embedding:

* Go `uint` values become `Nat` (truncated subtraction is only ever used
  where the Go code cannot underflow on reachable inputs); Go `int`
  values used as indices become `Int`.
* Go panics become `Except.error` with a message mirroring the panic.
* Go's `commonNode` (`interface{}` holding either `[]T` or
  `[]commonNode` whose entries may be `nil`) becomes the inductive
  `CNode`, with `Option` for possibly-nil child slots.  A type
  assertion on a value of the wrong shape, or on a nil interface,
  becomes an `interface conversion` error, and out-of-range slice
  indexing becomes an `index out of range` error.
* `make([]X, n)` followed by `copy(dst, src)` becomes `goCopy n src d`
  where `d` is the zero value of the element type (for element arrays
  the `Inhabited.default` of the type, for node arrays `none`).
-/

set_option autoImplicit false

namespace Peds

/-- Go constant `shiftSize = 5` from the vector source. -/
def shiftSize : Nat := 5

/-- Go constant `nodeSize = 32` from the vector source. -/
def nodeSize : Nat := 32

/-- Go constant `shiftBitMask = 0x1F` from the vector source. -/
def shiftBitMask : Nat := 0x1F

/-- Go `uintMin` from the vector source. -/
def uintMin (a b : Nat) : Nat := if a < b then a else b

/-- Panic message of a failed Go type assertion (also raised when the
asserted interface value is nil). -/
def interfaceConversionMsg : String := "interface conversion"

/-- Panic message of Go's out-of-range slice indexing. -/
def indexOutOfRangeMsg : String := "index out of range"

/-- Semantics of Go `dst := make([]A, n); copy(dst, src)`: the first
`min n src.length` slots hold `src`'s prefix, the rest hold the zero
value `d` of the element type. -/
def goCopy {A : Type} (n : Nat) (src : List A) (d : A) : List A :=
  src.take n ++ List.replicate (n - src.length) d

/-- Semantics of Go `dst[i] = x`: in-range writes update the slot,
out-of-range writes panic. -/
def goWrite {A : Type} (l : List A) (i : Nat) (x : A) : Except String (List A) :=
  if i < l.length then .ok (l.set i x) else .error indexOutOfRangeMsg

/-- Go's `commonNode`: an `interface{}` holding either a leaf array
`[]T` or an internal array `[]commonNode` whose entries may be nil
(`Option`). -/
inductive CNode (T : Type) where
  | leaf : List T → CNode T
  | internal : List (Option (CNode T)) → CNode T
  deriving Inhabited

/-- Go struct `Vector[T]` (`tail`, `root`, `len`, `shift`). -/
structure PVec (T : Type) where
  tail : List T
  root : CNode T
  len : Nat
  shift : Nat
  deriving Inhabited

namespace PVec

variable {T : Type}

/-- Go `emptyCommonNode`: the shared `[]commonNode{}` sentinel. -/
def emptyCommonNode : CNode T := .internal []

/-- Go `Vector.tailOffset`. -/
def tailOffset (v : PVec T) : Nat :=
  if v.len < nodeSize then 0
  else ((v.len - 1) >>> shiftSize) <<< shiftSize

/-- Go `newPath`: wrap `node` in `shift / 5` singleton internal nodes. -/
def newPath (shift : Nat) (node : CNode T) : CNode T :=
  if shift = 0 then node
  else newPath (shift - shiftSize) (.internal [some node])
termination_by shift
decreasing_by
  simp only [shiftSize]
  omega

/-- Go `Vector.pushTail` (the receiver's `v.len` is passed explicitly
as `vlen`).  A nil `parent` or a leaf `parent` fails the
`parent.([]commonNode)` type assertion. -/
def pushTail (vlen : Nat) (level : Nat) (parent : Option (CNode T)) (tailNode : List T) :
    Except String (CNode T) :=
  match parent with
  | none => .error interfaceConversionMsg
  | some (.leaf _) => .error interfaceConversionMsg
  | some (.internal parentNode) =>
    let subIdx := ((vlen - 1) >>> level) &&& shiftBitMask
    let ret := goCopy (subIdx + 1) parentNode none
    if level = shiftSize then
      .ok (.internal (ret.set subIdx (some (.leaf tailNode))))
    else if h : subIdx < parentNode.length then
      (pushTail vlen (level - shiftSize) (parentNode.getD subIdx none) tailNode).map
        (fun nd => .internal (ret.set subIdx (some nd)))
    else
      .ok (.internal (ret.set subIdx (some (newPath (level - shiftSize) (.leaf tailNode)))))
termination_by sizeOf parent
decreasing_by
  have hlt : (((vlen - 1) >>> level) &&& shiftBitMask) < parentNode.length := h
  have hm : parentNode.getD (((vlen - 1) >>> level) &&& shiftBitMask) none ∈ parentNode := by
    rw [List.getD_eq_getElem?_getD, List.getElem?_eq_getElem hlt]
    exact List.getElem_mem hlt
  have hsz := List.sizeOf_lt_of_mem hm
  simp only [Option.some.sizeOf_spec, CNode.internal.sizeOf_spec]
  omega

/-- Go `Vector.pushLeafNode`. -/
def pushLeafNode (v : PVec T) (node : List T) : Except String (PVec T) :=
  if (v.len >>> shiftSize) > (1 <<< v.shift) then
    .ok { root := .internal [some v.root, some (newPath v.shift (.leaf node))],
          tail := v.tail, len := v.len, shift := v.shift + shiftSize }
  else
    (pushTail v.len v.shift (some v.root) node).map
      (fun nr => { root := nr, tail := v.tail, len := v.len, shift := v.shift })

/-- The loop body of Go `Vector.Append`, as a recursion over the not yet
inserted suffix of `item` (`remaining = item[insertOffset:]`). -/
def appendLoop (result : PVec T) (remaining : List T) : Except String (PVec T) :=
  match hrem : remaining with
  | [] => .ok result
  | _ :: _ =>
    -- Go locals `tailLen = result.len - result.tailOffset()` and
    -- `tailFree = nodeSize - tailLen` are inlined below.
    if hfree : nodeSize - (result.len - result.tailOffset) = 0 then
      match pushLeafNode result result.tail with
      | .error e => .error e
      | .ok r1 =>
        -- after the flush Go empties the tail, so tailFree = nodeSize and the
        -- new tail is the (empty) tail plus the next batch
        let batchLen := uintMin remaining.length nodeSize
        let newTail : List T := [] ++ remaining.take batchLen
        appendLoop { r1 with tail := newTail, len := r1.len + batchLen }
          (remaining.drop batchLen)
    else
      let batchLen := uintMin remaining.length (nodeSize - (result.len - result.tailOffset))
      let newTail := result.tail ++ remaining.take batchLen
      appendLoop { result with tail := newTail, len := result.len + batchLen }
        (remaining.drop batchLen)
termination_by remaining.length
decreasing_by
  all_goals
    simp only [hrem, List.length_drop, List.length_cons, uintMin, nodeSize] at *
    split <;> omega

/-- Go `Vector.Append`. -/
def append (v : PVec T) (item : List T) : Except String (PVec T) :=
  appendLoop v item

/-- Go `NewVector`. -/
def newVector (items : List T) : Except String (PVec T) :=
  append { root := emptyCommonNode, shift := shiftSize, tail := [], len := 0 } items

/-- Go `Vector.Len`. -/
def lenOp (v : PVec T) : Nat := v.len

/-- The loop of Go `Vector.sliceFor`: descend from `node` while
`level > 0`, then assert the reached node is a leaf. -/
def sliceForNode (node : CNode T) (level : Nat) (i : Nat) : Except String (List T) :=
  if 0 < level then
    match node with
    | .leaf _ => .error interfaceConversionMsg
    | .internal cs =>
      match cs.get? ((i >>> level) &&& shiftBitMask) with
      | none => .error indexOutOfRangeMsg
      | some none => .error interfaceConversionMsg
      | some (some child) => sliceForNode child (level - shiftSize) i
  else
    match node with
    | .leaf l => .ok l
    | .internal _ => .error interfaceConversionMsg
termination_by level
decreasing_by
  simp only [shiftSize]
  omega

/-- Go `Vector.sliceFor`. -/
def sliceFor (v : PVec T) (i : Nat) : Except String (List T) :=
  if i ≥ v.tailOffset then .ok v.tail
  else sliceForNode v.root v.shift i

/-- Go `Vector.Get` (index is a Go `int`). -/
def get (v : PVec T) (i : Int) : Except String T :=
  if i < 0 ∨ v.len ≤ i.toNat then .error "Index out of bounds"
  else
    match sliceFor v i.toNat with
    | .error e => .error e
    | .ok s =>
      match s.get? (i.toNat &&& shiftBitMask) with
      | some x => .ok x
      | none => .error indexOutOfRangeMsg

/-- Go `Vector.doAssoc` (does not use its receiver). -/
def doAssoc [Inhabited T] (level : Nat) (node : Option (CNode T)) (i : Nat) (item : T) :
    Except String (CNode T) :=
  match node with
  | none => .error interfaceConversionMsg
  | some nd =>
    if level = 0 then
      match nd with
      | .leaf l => .ok (.leaf ((goCopy nodeSize l default).set (i &&& shiftBitMask) item))
      | .internal _ => .error interfaceConversionMsg
    else
      match nd with
      | .leaf _ => .error interfaceConversionMsg
      | .internal cs =>
        let ret := goCopy nodeSize cs none
        let subidx := (i >>> level) &&& shiftBitMask
        (doAssoc (level - shiftSize) (ret.getD subidx none) i item).map
          (fun child => .internal (ret.set subidx (some child)))
termination_by level
decreasing_by
  simp only [shiftSize]
  omega

/-- Go `Vector.Set` (index is a Go `int`). -/
def set [Inhabited T] (v : PVec T) (i : Int) (item : T) : Except String (PVec T) :=
  if i < 0 ∨ v.len ≤ i.toNat then .error "Index out of bounds"
  else if v.tailOffset ≤ i.toNat then
    (goWrite v.tail (i.toNat &&& shiftBitMask) item).map
      (fun nt => { v with tail := nt })
  else
    (doAssoc v.shift (some v.root) i.toNat item).map
      (fun nr => { v with root := nr })

/-- The loop of Go `Vector.Range`.  Go visitors are closures; the
embedding threads their captured state `S` explicitly, so the visitor
maps a state and an element to a new state and the continue flag. -/
def rangeLoop {S : Type} (v : PVec T) (f : S → T → S × Bool) (i : Nat)
    (currentNode : List T) (s : S) : Except String S :=
  if i < v.len then
    match (if i &&& shiftBitMask = 0 then sliceFor v i else .ok currentNode) with
    | .error e => .error e
    | .ok node =>
      match node.get? (i &&& shiftBitMask) with
      | none => .error indexOutOfRangeMsg
      | some x =>
        let r := f s x
        if r.2 then rangeLoop v f (i + 1) node r.1 else .ok r.1
  else .ok s
termination_by v.len - i

/-- Go `Vector.Range`: `currentNode` starts as the nil slice. -/
def range {S : Type} (v : PVec T) (f : S → T → S × Bool) (s : S) : Except String S :=
  rangeLoop v f 0 [] s

end PVec

/-- Go `assertSliceOk`. -/
def assertSliceOk (start stop len : Int) : Except String Unit :=
  if start < 0 then
    .error ("Invalid slice index " ++ toString start ++ " (index must be non-negative)")
  else if start > stop then
    .error ("Invalid slice index: " ++ toString start ++ " > " ++ toString stop)
  else if stop > len then
    .error ("Slice bounds out of range, start=" ++ toString start ++
      ", stop=" ++ toString stop ++ ", len=" ++ toString len)
  else .ok ()

/-- Go struct `VectorSlice[T]`. -/
structure VectorSlice (T : Type) where
  vector : PVec T
  start : Int
  stop : Int

/-- Go `Vector.Slice`. -/
def PVec.slice {T : Type} (v : PVec T) (start stop : Int) : Except String (VectorSlice T) :=
  (assertSliceOk start stop (v.len : Int)).map (fun _ => ⟨v, start, stop⟩)

/-! ## Arithmetic bridge: Go bit operations as division/remainder -/

@[simp] theorem nodeSize_def : nodeSize = 32 := rfl

@[simp] theorem shiftSize_def : shiftSize = 5 := rfl

@[simp] theorem shiftBitMask_def : shiftBitMask = 31 := rfl

theorem and_mask_eq_mod (n : Nat) : n &&& shiftBitMask = n % 32 := by
  have h := Nat.and_pow_two_sub_one_eq_mod n 5
  norm_num at h
  simpa [shiftBitMask] using h

theorem shiftr_five (n : Nat) : n >>> shiftSize = n / 32 := by
  have := Nat.shiftRight_eq_div_pow n 5
  norm_num at this
  simpa [shiftSize] using this

theorem shiftl_five (n : Nat) : n <<< shiftSize = n * 32 := by
  have := Nat.shiftLeft_eq n 5
  norm_num at this
  simpa [shiftSize] using this

theorem shiftr_mul_five (n h : Nat) : n >>> (5 * h) = n / 32 ^ h := by
  have h1 := Nat.shiftRight_eq_div_pow n (5 * h)
  rw [h1, pow_mul]
  norm_num

namespace PVec

variable {T : Type}

theorem tailOffset_eq (v : PVec T) : v.tailOffset = ((v.len - 1) / 32) * 32 := by
  unfold tailOffset
  rw [shiftr_five, shiftl_five]
  split
  · rename_i hlt
    simp only [nodeSize] at hlt
    omega
  · rfl

theorem tailOffset_le (v : PVec T) : v.tailOffset ≤ v.len := by
  rw [tailOffset_eq]; omega

theorem tailOffset_mod (v : PVec T) : v.tailOffset % 32 = 0 := by
  rw [tailOffset_eq]; omega

theorem len_sub_tailOffset_le (v : PVec T) : v.len - v.tailOffset ≤ 32 := by
  rw [tailOffset_eq]; omega

theorem tailOffset_lt_len (v : PVec T) (h : 1 ≤ v.len) : v.tailOffset < v.len := by
  rw [tailOffset_eq]; omega

end PVec

/-! ## Properties of `goCopy` -/

section GoCopy

variable {A : Type}

@[simp] theorem goCopy_length (n : Nat) (src : List A) (d : A) :
    (goCopy n src d).length = n := by
  simp only [goCopy, List.length_append, List.length_take, List.length_replicate]
  omega

theorem goCopy_getD (n : Nat) (src : List A) (d : A) (k : Nat) (hk : k < n) (x : A) :
    (goCopy n src d).getD k x = if k < src.length then src.getD k x else d := by
  simp only [goCopy]
  by_cases h : k < src.length
  · rw [if_pos h]
    rw [List.getD_append _ _ _ _ (by simp [List.length_take]; omega)]
    simp only [List.getD_eq_getElem?_getD, List.getElem?_take, if_pos hk]
  · rw [if_neg h]
    rw [List.getD_append_right _ _ _ _ (by simp [List.length_take]; omega)]
    simp only [List.getD_eq_getElem?_getD, List.getElem?_replicate, List.length_take]
    rw [if_pos (by omega)]
    rfl

theorem goCopy_eq_self (n : Nat) (src : List A) (d : A) (h : src.length = n) :
    goCopy n src d = src := by
  simp [goCopy, h, List.take_of_length_le (le_of_eq h)]

theorem goCopy_eq_append_one (n : Nat) (src : List A) (d : A) (h : src.length + 1 = n) :
    goCopy n src d = src ++ [d] := by
  simp [goCopy, List.take_of_length_le (by omega : src.length ≤ n)]
  have : n - src.length = 1 := by omega
  simp [this]

end GoCopy

open PVec

/-! ## The representation invariant

`NodeRep strict h node ls` states that the trie node `node` sits at
height `h` (Go descends it with `level = 5 * h`) and represents the
list `ls` of 32-element leaves, packed from the left with all children
other than the rightmost one completely full.  With `strict = true`
node arrays have exactly as many slots as live children (the shape
produced by `Append` alone); with `strict = false` arrays may carry
extra (junk) slots beyond the live children, which is the shape `Set`'s
`doAssoc` produces by padding copied arrays to `nodeSize`. -/

def NodeRep {T : Type} (strict : Bool) : Nat → CNode T → List (List T) → Prop
  | 0, _, _ => False
  | 1, node, ls =>
    match node with
    | .leaf _ => False
    | .internal cs =>
      ls.length ≤ 32 ∧ cs.length ≤ 32 ∧ ls.length ≤ cs.length ∧
      (strict = true → cs.length = ls.length) ∧
      (∀ k, k < ls.length → cs.getD k none = some (.leaf (ls.getD k []))) ∧
      (∀ l ∈ ls, l.length = 32)
  | (h+2), node, ls =>
    match node with
    | .leaf _ => False
    | .internal cs =>
      ∃ m r : Nat,
        1 ≤ m ∧ m ≤ 32 ∧ 1 ≤ r ∧ r ≤ 32 ^ (h+1) ∧
        ls.length = (m - 1) * 32 ^ (h+1) + r ∧
        cs.length ≤ 32 ∧ m ≤ cs.length ∧
        (strict = true → cs.length = m) ∧
        (∀ k, k < m → ∃ ck, cs.getD k none = some ck ∧
          NodeRep strict (h+1) ck ((ls.drop (k * 32 ^ (h+1))).take (32 ^ (h+1))))

/-- The list of full 32-element leaves stored in the trie part of a
vector whose elements are `es` and whose `tailOffset` is `toff`. -/
def trieLeaves {T : Type} (es : List T) (toff : Nat) : List (List T) :=
  (List.range (toff / 32)).map (fun k => (es.drop (32 * k)).take 32)

@[simp] theorem trieLeaves_length {T : Type} (es : List T) (toff : Nat) :
    (trieLeaves es toff).length = toff / 32 := by
  simp [trieLeaves]

/-- The vector representation invariant: `v` is a well-formed persistent
vector holding exactly the elements `es`. -/
def VRep {T : Type} (strict : Bool) (v : PVec T) (es : List T) : Prop :=
  v.len = es.length ∧
  v.tail = es.drop v.tailOffset ∧
  ∃ h : Nat, v.shift = 5 * h ∧ 1 ≤ h ∧
    NodeRep strict h v.root (trieLeaves es v.tailOffset) ∧
    v.tailOffset / 32 ≤ 32 ^ h ∧
    (h = 1 ∨ 32 ^ (h - 1) < v.tailOffset / 32)

/-! ## List access helpers -/

section ListHelpers

variable {A : Type}

theorem get?_eq_some_getD (l : List A) (k : Nat) (d : A) (hk : k < l.length) :
    l.get? k = some (l.getD k d) := by
  simp [List.getD_eq_getElem?_getD, List.get?_eq_getElem?, List.getElem?_eq_getElem hk]

theorem getD_drop_take (l : List A) (a b j : Nat) (d : A) (hj : j < b) :
    ((l.drop a).take b).getD j d = l.getD (a + j) d := by
  simp [List.getD_eq_getElem?_getD, List.getElem?_take, hj, List.getElem?_drop]

theorem getD_mem (l : List A) (j : Nat) (d : A) (hj : j < l.length) :
    l.getD j d ∈ l := by
  rw [List.getD_eq_getElem?_getD, List.getElem?_eq_getElem hj]
  exact List.getElem_mem hj

theorem getD_set_self (l : List A) (j : Nat) (x d : A) (hj : j < l.length) :
    (l.set j x).getD j d = x := by
  rw [List.getD_eq_getElem?_getD, List.getElem?_set_self' ]
  simp [hj]

theorem getD_set_ne (l : List A) (j k : Nat) (x d : A) (hne : j ≠ k) :
    (l.set j x).getD k d = l.getD k d := by
  simp [List.getD_eq_getElem?_getD, List.getElem?_set_ne hne]

end ListHelpers

theorem trieLeaves_getD {T : Type} (es : List T) (toff k : Nat) (hk : k < toff / 32) :
    (trieLeaves es toff).getD k [] = (es.drop (32 * k)).take 32 := by
  simp [trieLeaves, List.getD_eq_getElem?_getD, List.getElem?_map, List.getElem?_range, hk]

/-! ## Structural facts about `NodeRep` -/

theorem nodeRep_length_le {T : Type} {strict : Bool} :
    ∀ (h : Nat) (node : CNode T) (ls : List (List T)),
      NodeRep strict h node ls → ls.length ≤ 32 ^ h
  | 0, _, _, hrep => by simp [NodeRep] at hrep
  | 1, node, ls, hrep => by
    cases node with
    | leaf _ => simp [NodeRep] at hrep
    | internal cs =>
      simp only [NodeRep] at hrep
      simpa using hrep.1
  | (h+2), node, ls, hrep => by
    cases node with
    | leaf _ => simp [NodeRep] at hrep
    | internal cs =>
      simp only [NodeRep] at hrep
      obtain ⟨m, r, hm1, hm32, hr1, hrB, hlen, _⟩ := hrep
      have h32 : 32 ^ (h+2) = 32 * 32 ^ (h+1) := by ring
      have hmB : (m - 1) * 32 ^ (h+1) ≤ 31 * 32 ^ (h+1) :=
        Nat.mul_le_mul_right _ (by omega)
      omega

theorem nodeRep_leaf_length {T : Type} {strict : Bool} :
    ∀ (h : Nat) (node : CNode T) (ls : List (List T)),
      NodeRep strict h node ls → ∀ j, j < ls.length → (ls.getD j []).length = 32
  | 0, _, _, hrep => by simp [NodeRep] at hrep
  | 1, node, ls, hrep => by
    cases node with
    | leaf _ => simp [NodeRep] at hrep
    | internal cs =>
      intro j hj
      simp only [NodeRep] at hrep
      exact hrep.2.2.2.2.2 _ (getD_mem ls j [] hj)
  | (h+2), node, ls, hrep => by
    cases node with
    | leaf _ => simp [NodeRep] at hrep
    | internal cs =>
      intro j hj
      simp only [NodeRep] at hrep
      obtain ⟨m, r, hm1, hm32, hr1, hrB, hlen, _, _, _, hch⟩ := hrep
      set B := 32 ^ (h+1) with hB
      have hBpos : 0 < B := Nat.pos_pow_of_pos _ (by norm_num)
      have hmB : (m - 1) * B + B = B * m := by
        cases m with
        | zero => omega
        | succ m' => simp only [Nat.succ_sub_one]; ring
      have hkm : j / B < m := Nat.div_lt_of_lt_mul (by omega)
      obtain ⟨ck, _, hrepk⟩ := hch (j / B) hkm
      have hsum : j / B * B + j % B = j := Nat.div_add_mod' j B
      have hrec := nodeRep_leaf_length (h+1) ck _ hrepk (j % B)
        (by
          have hlen2 : ((ls.drop (j / B * B)).take B).length = min B (ls.length - j / B * B) := by
            simp [List.length_take, List.length_drop]
          rw [hlen2]
          have h1 : j % B < B := Nat.mod_lt _ hBpos
          omega)
      rwa [getD_drop_take _ _ _ _ _ (Nat.mod_lt _ hBpos), hsum] at hrec

theorem nodeRep_loose {T : Type} {strict : Bool} :
    ∀ (h : Nat) (node : CNode T) (ls : List (List T)),
      NodeRep strict h node ls → NodeRep false h node ls
  | 0, _, _, hrep => by simp [NodeRep] at hrep
  | 1, node, ls, hrep => by
    cases node with
    | leaf _ => simp [NodeRep] at hrep
    | internal cs =>
      simp only [NodeRep] at hrep ⊢
      exact ⟨hrep.1, hrep.2.1, hrep.2.2.1, by simp, hrep.2.2.2.2.1, hrep.2.2.2.2.2⟩
  | (h+2), node, ls, hrep => by
    cases node with
    | leaf _ => simp [NodeRep] at hrep
    | internal cs =>
      simp only [NodeRep] at hrep ⊢
      obtain ⟨m, r, hm1, hm32, hr1, hrB, hlen, hcs, hmcs, _, hch⟩ := hrep
      refine ⟨m, r, hm1, hm32, hr1, hrB, hlen, hcs, hmcs, by simp, ?_⟩
      intro k hk
      obtain ⟨ck, hck, hrepk⟩ := hch k hk
      exact ⟨ck, hck, nodeRep_loose (h+1) ck _ hrepk⟩

/-! ## Correctness of the `sliceFor` descent -/

theorem sliceForNode_rep {T : Type} {strict : Bool} :
    ∀ (h : Nat) (node : CNode T) (ls : List (List T)) (i : Nat),
      NodeRep strict h node ls → (i / 32) % 32 ^ h < ls.length →
      sliceForNode node (5 * h) i = .ok (ls.getD ((i / 32) % 32 ^ h) [])
  | 0, _, _, _, hrep, _ => by simp [NodeRep] at hrep
  | 1, node, ls, i, hrep, hi => by
    cases node with
    | leaf _ => simp [NodeRep] at hrep
    | internal cs =>
      simp only [NodeRep] at hrep
      obtain ⟨hls, hcs, hlscs, _, hlook, _⟩ := hrep
      rw [sliceForNode]
      rw [if_pos (by norm_num)]
      have hidx : (i >>> (5 * 1)) &&& shiftBitMask = (i / 32) % 32 ^ 1 := by
        rw [shiftr_mul_five, and_mask_eq_mod]
        norm_num
      rw [hidx]
      rw [get?_eq_some_getD cs _ none (by omega)]
      rw [hlook _ hi]
      show sliceForNode (CNode.leaf (ls.getD ((i / 32) % 32 ^ 1) [])) (5 * 1 - shiftSize) i
          = Except.ok (ls.getD ((i / 32) % 32 ^ 1) [])
      rw [sliceForNode.eq_def]
      norm_num [shiftSize]
  | (h+2), node, ls, i, hrep, hi => by
    cases node with
    | leaf _ => simp [NodeRep] at hrep
    | internal cs =>
      simp only [NodeRep] at hrep
      obtain ⟨m, r, hm1, hm32, hr1, hrB, hlen, hcs, hmcs, _, hch⟩ := hrep
      set B := 32 ^ (h+1) with hB
      have hBpos : 0 < B := Nat.pos_pow_of_pos _ (by norm_num)
      set L := (i / 32) % 32 ^ (h+2) with hL
      -- the child index selected by the top 5-bit group
      have hsub : (i >>> (5 * (h+2))) &&& shiftBitMask = L / B := by
        rw [shiftr_mul_five, and_mask_eq_mod]
        have h1 : i / 32 ^ (h+2) = (i / 32) / B := by
          rw [Nat.div_div_eq_div_mul, hB, ← pow_succ']
        rw [h1, Nat.div_mod_eq_mod_mul_div, hL, hB]
        have h2 : 32 ^ (h + 1) * 32 = 32 ^ (h+2) := by ring
        rw [h2]
      have hmB : (m - 1) * B + B = B * m := by
        cases m with
        | zero => omega
        | succ m' => simp only [Nat.succ_sub_one]; ring
      have hkm : L / B < m := Nat.div_lt_of_lt_mul (by omega)
      obtain ⟨ck, hck, hrepk⟩ := hch (L / B) hkm
      rw [sliceForNode]
      rw [if_pos (by positivity)]
      rw [hsub, get?_eq_some_getD cs _ none (by omega), hck]
      have hstep : 5 * (h + 2) - shiftSize = 5 * (h + 1) := by simp [shiftSize]; omega
      rw [hstep]
      have hmod : (i / 32) % B = L % B := by
        rw [hL, Nat.mod_mod_of_dvd]
        exact ⟨32, by rw [hB]; ring⟩
      have hslice : ((ls.drop (L / B * B)).take B).length = min B (ls.length - L / B * B) := by
        simp [List.length_take, List.length_drop]
      have hLB : L / B * B + L % B = L := Nat.div_add_mod' L B
      have hrec := sliceForNode_rep (h+1) ck _ i hrepk
        (by rw [hslice, hmod]; have := Nat.mod_lt L hBpos; omega)
      show sliceForNode ck (5 * (h + 1)) i = Except.ok (ls.getD L [])
      rw [hrec]
      congr 1
      rw [hmod, getD_drop_take _ _ _ _ _ (Nat.mod_lt _ hBpos), hLB]

/-! ## Window helpers: how `set` interacts with `drop`/`take` slices -/

section WindowHelpers

variable {A : Type}

theorem getD_drop (l : List A) (a j : Nat) (d : A) :
    (l.drop a).getD j d = l.getD (a + j) d := by
  simp [List.getD_eq_getElem?_getD, List.getElem?_drop]

theorem drop_set_ge (l : List A) (p a : Nat) (y : A) (ha : a ≤ p) :
    (l.set p y).drop a = (l.drop a).set (p - a) y := by
  apply List.ext_getElem?
  intro n
  simp only [List.getElem?_drop, List.getElem?_set, List.length_drop]
  split_ifs <;> first | rfl | (exfalso; omega) | (rw [List.getElem?_drop])

theorem drop_set_lt (l : List A) (p a : Nat) (y : A) (ha : p < a) :
    (l.set p y).drop a = l.drop a := by
  apply List.ext_getElem?
  intro n
  rw [List.getElem?_drop, List.getElem?_drop, List.getElem?_set_ne (by omega)]

theorem set_drop_take_in (l : List A) (a b j : Nat) (y : A) (hj : j < b) :
    ((l.set (a + j) y).drop a).take b = ((l.drop a).take b).set j y := by
  apply List.ext_getElem?
  intro n
  simp only [List.getElem?_take, List.getElem?_set, List.getElem?_drop,
    List.length_take, List.length_drop]
  split_ifs <;> first | rfl | (exfalso; omega) | (rw [List.getElem?_take]; split_ifs <;> first | rfl | (exfalso; omega))

theorem set_drop_take_out (l : List A) (a b p : Nat) (y : A) (hp : p < a ∨ a + b ≤ p) :
    ((l.set p y).drop a).take b = (l.drop a).take b := by
  apply List.ext_getElem?
  intro n
  rw [List.getElem?_take, List.getElem?_take]
  by_cases hn : n < b
  · rw [if_pos hn, if_pos hn, List.getElem?_drop, List.getElem?_drop,
      List.getElem?_set_ne (by omega)]
  · rw [if_neg hn, if_neg hn]

end WindowHelpers

theorem trieLeaves_set_tail {T : Type} (es : List T) (toff j : Nat) (x : T) (hj : toff ≤ j) :
    trieLeaves (es.set j x) toff = trieLeaves es toff := by
  unfold trieLeaves
  apply List.map_congr_left
  intro k hk
  rw [List.mem_range] at hk
  apply set_drop_take_out
  right
  have h32 : 32 * k + 32 ≤ toff := by omega
  omega

theorem trieLeaves_set_trie {T : Type} (es : List T) (toff j : Nat) (x : T)
    (hj : j < toff) (hmod : toff % 32 = 0) :
    trieLeaves (es.set j x) toff =
      (trieLeaves es toff).set (j / 32)
        (((es.drop (32 * (j / 32))).take 32).set (j % 32) x) := by
  have hsum : 32 * (j / 32) + j % 32 = j := Nat.div_add_mod j 32
  have hmlt : j % 32 < 32 := Nat.mod_lt _ (by norm_num)
  have hdiv : j / 32 < toff / 32 := by omega
  unfold trieLeaves
  apply List.ext_getElem?
  intro n
  rw [List.getElem?_set]
  simp only [List.length_map, List.length_range]
  by_cases hn : n < toff / 32
  · rw [List.getElem?_map, List.getElem?_map, List.getElem?_range hn]
    simp only [Option.map_some']
    by_cases hjn : j / 32 = n
    · rw [if_pos hjn, if_pos (by omega)]
      subst hjn
      congr 1
      have hw := set_drop_take_in es (32 * (j / 32)) 32 (j % 32) x hmlt
      rw [hsum] at hw
      exact hw
    · rw [if_neg hjn]
      congr 1
      apply set_drop_take_out
      rcases Nat.lt_or_ge (j / 32) n with hc | hc
      · left; omega
      · right; omega
  · rw [if_neg (by omega)]
    rw [List.getElem?_map, List.getElem?_map,
      List.getElem?_eq_none (by simpa using hn)]
    rfl

/-- `Get` under the invariant: every in-range index reads the abstract
element list. -/
theorem get_rep {T : Type} {s : Bool} {v : PVec T} {es : List T}
    (hrep : VRep s v es) (j : Nat) (hj : j < es.length) (d : T) :
    PVec.get v (j : Int) = .ok (es.getD j d) := by
  obtain ⟨hlen, htail, h, hshift, hh1, hroot, hcap, _⟩ := hrep
  have htoffmod : v.tailOffset % 32 = 0 := tailOffset_mod v
  have htoffle : v.tailOffset ≤ v.len := tailOffset_le v
  have hlenle : v.len - v.tailOffset ≤ 32 := len_sub_tailOffset_le v
  unfold PVec.get
  have htn : (j : Int).toNat = j := Int.toNat_natCast j
  have hcond : ¬((j : Int) < 0 ∨ v.len ≤ (j : Int).toNat) := by
    push_neg
    refine ⟨Int.natCast_nonneg j, ?_⟩
    rw [htn]
    omega
  rw [if_neg hcond, htn]
  by_cases hcase : v.tailOffset ≤ j
  · -- the element lives in the tail
    have hslice : sliceFor v j = .ok (es.drop v.tailOffset) := by
      unfold sliceFor
      rw [if_pos hcase, htail]
    rw [hslice]
    show (match (es.drop v.tailOffset).get? (j &&& shiftBitMask) with
          | some x => Except.ok x
          | none => Except.error indexOutOfRangeMsg) = Except.ok (es.getD j d)
    rw [and_mask_eq_mod]
    have hj32 : j % 32 = j - v.tailOffset := by omega
    rw [hj32]
    rw [get?_eq_some_getD _ _ d (by simp [List.length_drop]; omega)]
    rw [getD_drop]
    have harr : v.tailOffset + (j - v.tailOffset) = j := by omega
    rw [harr]
  · -- the element lives in the trie
    push_neg at hcase
    have hlt : j / 32 < v.tailOffset / 32 := by omega
    have hmodid : (j / 32) % 32 ^ h = j / 32 :=
      Nat.mod_eq_of_lt (lt_of_lt_of_le hlt hcap)
    have hslice : sliceFor v j =
        .ok ((es.drop (32 * (j / 32))).take 32) := by
      unfold sliceFor
      rw [if_neg (by omega), hshift]
      rw [sliceForNode_rep h v.root (trieLeaves es v.tailOffset) j hroot
        (by rw [hmodid]; simpa using hlt)]
      rw [hmodid, trieLeaves_getD _ _ _ hlt]
    rw [hslice]
    show (match ((es.drop (32 * (j / 32))).take 32).get? (j &&& shiftBitMask) with
          | some x => Except.ok x
          | none => Except.error indexOutOfRangeMsg) = Except.ok (es.getD j d)
    rw [and_mask_eq_mod]
    have hsum : 32 * (j / 32) + j % 32 = j := Nat.div_add_mod j 32
    have hmlt : j % 32 < 32 := Nat.mod_lt _ (by norm_num)
    rw [get?_eq_some_getD _ _ d (by simp [List.length_take, List.length_drop]; omega)]
    rw [getD_drop_take _ _ _ _ _ hmlt, hsum]

/-! ## Unfolding lemmas for `doAssoc` -/

theorem doAssoc_none {T : Type} [Inhabited T] (level i : Nat) (x : T) :
    doAssoc level none i x = .error interfaceConversionMsg := by
  rw [doAssoc.eq_def]

theorem doAssoc_leaf_zero {T : Type} [Inhabited T] (l : List T) (i : Nat) (x : T) :
    doAssoc 0 (some (.leaf l)) i x =
      .ok (.leaf ((goCopy nodeSize l default).set (i &&& shiftBitMask) x)) := by
  rw [doAssoc.eq_def]
  rfl

theorem doAssoc_internal {T : Type} [Inhabited T] (level : Nat)
    (cs : List (Option (CNode T))) (i : Nat) (x : T) (hlvl : level ≠ 0) :
    doAssoc level (some (.internal cs)) i x =
      (doAssoc (level - shiftSize)
          ((goCopy nodeSize cs none).getD ((i >>> level) &&& shiftBitMask) none) i x).map
        (fun child =>
          .internal ((goCopy nodeSize cs none).set ((i >>> level) &&& shiftBitMask)
            (some child))) := by
  rw [doAssoc.eq_def]
  simp [hlvl]

/-- `doAssoc` under the invariant: a valid trie index is updated in
place along a copied path, and the (loose) invariant is preserved with
the selected leaf's slot replaced. -/
theorem doAssoc_rep {T : Type} [Inhabited T] {strict : Bool} :
    ∀ (h : Nat) (node : CNode T) (ls : List (List T)) (i : Nat) (x : T) (L : Nat),
      NodeRep strict h node ls → L = (i / 32) % 32 ^ h → L < ls.length →
      ∃ nd, doAssoc (5 * h) (some node) i x = .ok nd ∧
        NodeRep false h nd (ls.set L ((ls.getD L []).set (i % 32) x))
  | 0, _, _, _, _, _, hrep, _, _ => by simp [NodeRep] at hrep
  | 1, node, ls, i, x, L, hrep, hLdef, hi => by
    cases node with
    | leaf _ => simp [NodeRep] at hrep
    | internal cs =>
      simp only [NodeRep] at hrep
      obtain ⟨hls, hcs, hlscs, _, hlook, hmem⟩ := hrep
      have hL32 : L = (i / 32) % 32 := by rw [hLdef]; norm_num
      have hLlt : L < 32 := by rw [hL32]; exact Nat.mod_lt _ (by norm_num)
      have hsub : (i >>> (5 * 1)) &&& shiftBitMask = L := by
        rw [shiftr_mul_five, and_mask_eq_mod, hLdef]
        norm_num
      have hleafL : (ls.getD L []).length = 32 := hmem _ (getD_mem ls L [] hi)
      rw [doAssoc_internal _ _ _ _ (by norm_num), hsub]
      have hstep : 5 * 1 - shiftSize = 0 := by simp
      rw [hstep]
      have hLns : L < nodeSize := by rw [nodeSize_def]; omega
      have hretD : (goCopy nodeSize cs none).getD L none = some (.leaf (ls.getD L [])) := by
        rw [goCopy_getD nodeSize cs none L hLns none, if_pos (by omega)]
        exact hlook _ hi
      rw [hretD, doAssoc_leaf_zero]
      have hgc : goCopy nodeSize (ls.getD L []) default = ls.getD L [] :=
        goCopy_eq_self nodeSize (ls.getD L []) default (by rw [hleafL, nodeSize_def])
      rw [hgc, and_mask_eq_mod]
      refine ⟨_, rfl, ?_⟩
      simp only [NodeRep]
      have hcs' : ((goCopy nodeSize cs none).set L
          (some (.leaf ((ls.getD L []).set (i % 32) x)))).length = 32 := by
        simp
      refine ⟨by simpa using hls, by rw [hcs'], by rw [hcs']; simpa using hls,
        by simp, ?_, ?_⟩
      · intro k hk
        simp only [List.length_set] at hk
        by_cases hkL : k = L
        · subst hkL
          rw [getD_set_self _ _ _ _ (by simp [nodeSize_def]; omega),
            getD_set_self _ _ _ _ (by omega)]
        · rw [getD_set_ne _ _ _ _ _ (fun hh => hkL hh.symm),
            getD_set_ne _ _ _ _ _ (fun hh => hkL hh.symm)]
          rw [goCopy_getD nodeSize cs none k (by rw [nodeSize_def]; omega) none,
            if_pos (by omega)]
          exact hlook _ hk
      · intro l hl
        rcases List.mem_or_eq_of_mem_set hl with hmem' | heq
        · exact hmem _ hmem'
        · rw [heq, List.length_set]
          exact hleafL
  | (h+2), node, ls, i, x, L, hrep, hLdef, hi => by
    cases node with
    | leaf _ => simp [NodeRep] at hrep
    | internal cs =>
      simp only [NodeRep] at hrep
      obtain ⟨m, r, hm1, hm32, hr1, hrB, hlen, hcs, hmcs, _, hch⟩ := hrep
      set B := 32 ^ (h+1) with hB
      have hBpos : 0 < B := Nat.pos_pow_of_pos _ (by norm_num)
      have hsub : (i >>> (5 * (h+2))) &&& shiftBitMask = L / B := by
        rw [shiftr_mul_five, and_mask_eq_mod]
        have h1 : i / 32 ^ (h+2) = (i / 32) / B := by
          rw [Nat.div_div_eq_div_mul, hB, ← pow_succ']
        rw [h1, Nat.div_mod_eq_mod_mul_div, hLdef, hB]
        have h2 : 32 ^ (h + 1) * 32 = 32 ^ (h+2) := by ring
        rw [h2]
      have hmB : (m - 1) * B + B = B * m := by
        cases m with
        | zero => omega
        | succ m' => simp only [Nat.succ_sub_one]; ring
      have hkm : L / B < m := Nat.div_lt_of_lt_mul (by omega)
      obtain ⟨ck, hck, hrepk⟩ := hch (L / B) hkm
      have hmod : (i / 32) % B = L % B := by
        rw [hLdef, Nat.mod_mod_of_dvd]
        exact ⟨32, by rw [hB]; ring⟩
      have hLB : L / B * B + L % B = L := Nat.div_add_mod' L B
      have hLmod : L % B < B := Nat.mod_lt _ hBpos
      have hslicelen : ((ls.drop (L / B * B)).take B).length = min B (ls.length - L / B * B) := by
        simp [List.length_take, List.length_drop]
      have hsliceD : ((ls.drop (L / B * B)).take B).getD (L % B) [] = ls.getD L [] := by
        rw [getD_drop_take _ _ _ _ _ hLmod, hLB]
      obtain ⟨child, hchild, hchildrep⟩ :=
        doAssoc_rep (h+1) ck ((ls.drop (L / B * B)).take B) i x (L % B) hrepk
          (by rw [hmod])
          (by rw [hslicelen]; omega)
      rw [doAssoc_internal (5 * (h+2)) cs i x (by omega), hsub]
      have hstep : 5 * (h + 2) - shiftSize = 5 * (h + 1) := by simp; omega
      rw [hstep]
      have hretD : (goCopy nodeSize cs none).getD (L / B) none = some ck := by
        rw [goCopy_getD nodeSize cs none (L / B) (by rw [nodeSize_def]; omega) none,
          if_pos (by omega)]
        exact hck
      rw [hretD, hchild]
      refine ⟨_, rfl, ?_⟩
      simp only [NodeRep]
      have hcs' : ((goCopy nodeSize cs none).set (L / B) (some child)).length = 32 := by
        simp
      refine ⟨m, r, hm1, hm32, hr1, hrB, by simpa using hlen, by rw [hcs'],
        by rw [hcs']; omega, by simp, ?_⟩
      intro k hk
      by_cases hkL : k = L / B
      · subst hkL
        refine ⟨child, ?_, ?_⟩
        · rw [getD_set_self _ _ _ _ (by simp; omega)]
        · have hw := set_drop_take_in ls (L / B * B) B (L % B)
            ((ls.getD L []).set (i % 32) x) hLmod
          rw [hLB] at hw
          rw [hsliceD] at hchildrep
          rw [hw]
          exact hchildrep
      · obtain ⟨ck2, hck2, hrepk2⟩ := hch k hk
        refine ⟨ck2, ?_, ?_⟩
        · rw [getD_set_ne _ _ _ _ _ (fun hh => hkL hh.symm)]
          rw [goCopy_getD nodeSize cs none k (by rw [nodeSize_def]; omega) none,
            if_pos (by omega)]
          exact hck2
        · have hout : ((ls.set L ((ls.getD L []).set (i % 32) x)).drop (k * B)).take B
              = (ls.drop (k * B)).take B := by
            apply set_drop_take_out
            rcases Nat.lt_or_ge k (L / B) with hc | hc
            · right
              have h1 : (k + 1) * B ≤ L / B * B := Nat.mul_le_mul_right _ (by omega)
              have h2 : (k + 1) * B = k * B + B := by ring
              have h3 : L / B * B ≤ L := Nat.div_mul_le_self L B
              omega
            · left
              have hc2 : L / B < k := by omega
              have h1 : (L / B + 1) * B ≤ k * B := Nat.mul_le_mul_right _ (by omega)
              have h2 : (L / B + 1) * B = L / B * B + B := by ring
              omega
          rw [hout]
          exact nodeRep_loose _ _ _ hrepk2

/-- `Set` under the invariant: a valid index is updated, the handle's
length and shift are unchanged, and the (loose) invariant holds for the
updated element list. -/
theorem set_rep {T : Type} [Inhabited T] {s : Bool} {v : PVec T} {es : List T}
    (hrep : VRep s v es) (j : Nat) (hj : j < es.length) (x : T) :
    ∃ v', PVec.set v (j : Int) x = .ok v' ∧ VRep false v' (es.set j x) ∧
      v'.len = v.len ∧ v'.shift = v.shift := by
  obtain ⟨hlen, htail, h, hshift, hh1, hroot, hcap, hlow⟩ := hrep
  have htoffmod : v.tailOffset % 32 = 0 := tailOffset_mod v
  have htoffle : v.tailOffset ≤ v.len := tailOffset_le v
  have hlenle : v.len - v.tailOffset ≤ 32 := len_sub_tailOffset_le v
  have htn : (j : Int).toNat = j := Int.toNat_natCast j
  have hcond : ¬((j : Int) < 0 ∨ v.len ≤ (j : Int).toNat) := by
    push_neg
    refine ⟨Int.natCast_nonneg j, ?_⟩
    rw [htn]
    omega
  unfold PVec.set
  rw [if_neg hcond, htn]
  by_cases hcase : v.tailOffset ≤ j
  · -- the index is in the tail: copy the tail and write the slot
    rw [if_pos hcase]
    have hj32 : j &&& shiftBitMask = j - v.tailOffset := by
      rw [and_mask_eq_mod]; omega
    have hwrite : goWrite v.tail (j &&& shiftBitMask) x =
        .ok (v.tail.set (j - v.tailOffset) x) := by
      rw [hj32]
      unfold goWrite
      rw [if_pos (by rw [htail]; simp [List.length_drop]; omega)]
    rw [hwrite]
    refine ⟨_, rfl, ⟨?_, ?_, h, ?_, hh1, ?_, ?_, ?_⟩, rfl, rfl⟩
    · show v.len = (es.set j x).length
      simpa using hlen
    · show v.tail.set (j - v.tailOffset) x = (es.set j x).drop v.tailOffset
      rw [htail, drop_set_ge _ _ _ _ hcase]
    · exact hshift
    · show NodeRep false h v.root (trieLeaves (es.set j x) v.tailOffset)
      rw [trieLeaves_set_tail _ _ _ _ hcase]
      exact nodeRep_loose _ _ _ hroot
    · exact hcap
    · exact hlow
  · -- the index is in the trie: path-copy via doAssoc
    push_neg at hcase
    rw [if_neg (by omega)]
    have hlt : j / 32 < v.tailOffset / 32 := by omega
    have hmodid : (j / 32) % 32 ^ h = j / 32 :=
      Nat.mod_eq_of_lt (lt_of_lt_of_le hlt hcap)
    obtain ⟨nd, hnd, hndrep⟩ :=
      doAssoc_rep h v.root (trieLeaves es v.tailOffset) j x (j / 32) hroot
        (by rw [hmodid]) (by simpa using hlt)
    rw [← hshift] at hnd
    rw [hnd]
    refine ⟨_, rfl, ⟨?_, ?_, h, ?_, hh1, ?_, ?_, ?_⟩, rfl, rfl⟩
    · show v.len = (es.set j x).length
      simpa using hlen
    · show v.tail = (es.set j x).drop v.tailOffset
      rw [drop_set_lt _ _ _ _ hcase, htail]
    · exact hshift
    · show NodeRep false h nd (trieLeaves (es.set j x) v.tailOffset)
      rw [trieLeaves_set_trie _ _ _ _ hcase htoffmod]
      rw [← trieLeaves_getD es v.tailOffset (j / 32) hlt]
      exact hndrep
    · exact hcap
    · exact hlow

/-! ## `newPath` and `pushTail`: flushing a full tail into the trie -/

theorem newPath_zero {T : Type} (node : CNode T) : newPath 0 node = node := by
  rw [newPath.eq_def]
  rfl

theorem newPath_succ {T : Type} (shift : Nat) (node : CNode T) (h : shift ≠ 0) :
    newPath shift node = newPath (shift - shiftSize) (.internal [some node]) := by
  rw [newPath.eq_def]
  simp [h]

/-- Wrapping a represented node in a chain of singleton internal nodes
adds exactly the chain's height. -/
theorem nodeRep_wrap {T : Type} {s : Bool} (h0 : Nat) (node : CNode T)
    (ls : List (List T)) (hrep : NodeRep s h0 node ls) (hne : ls ≠ []) :
    NodeRep s (h0 + 1) (.internal [some node]) ls := by
  match h0 with
  | 0 => simp [NodeRep] at hrep
  | hh + 1 =>
    show NodeRep s (hh + 2) (.internal [some node]) ls
    simp only [NodeRep]
    have hle : ls.length ≤ 32 ^ (hh + 1) := nodeRep_length_le _ _ _ hrep
    have hpos : 0 < ls.length := List.length_pos.mpr hne
    refine ⟨1, ls.length, le_refl 1, by norm_num, hpos, hle, by omega,
      by norm_num, by norm_num, by norm_num, ?_⟩
    intro k hk
    have hk0 : k = 0 := by omega
    subst hk0
    refine ⟨node, rfl, ?_⟩
    simpa [List.take_of_length_le hle] using hrep

theorem newPath_rep {T : Type} {s : Bool} :
    ∀ (k h0 : Nat) (node : CNode T) (ls : List (List T)),
      NodeRep s h0 node ls → ls ≠ [] →
      NodeRep s (h0 + k) (newPath (5 * k) node) ls
  | 0, h0, node, ls, hrep, _ => by
    rw [Nat.mul_zero, newPath_zero]
    exact hrep
  | (k+1), h0, node, ls, hrep, hne => by
    rw [newPath_succ _ _ (by omega)]
    have hstep : 5 * (k + 1) - shiftSize = 5 * k := by simp; omega
    rw [hstep]
    have := newPath_rep k (h0 + 1) (.internal [some node]) ls
      (nodeRep_wrap h0 node ls hrep hne) hne
    have harith : h0 + 1 + k = h0 + (k + 1) := by omega
    rwa [harith] at this

/-- The chain built for a freshly flushed leaf. -/
theorem newPath_leaf_rep {T : Type} (h : Nat) (t : List T) (ht : t.length = 32) :
    NodeRep true (h + 1) (newPath (5 * (h + 1)) (.leaf t)) [t] := by
  rw [newPath_succ _ _ (by omega)]
  have hstep : 5 * (h + 1) - shiftSize = 5 * h := by simp; omega
  rw [hstep]
  have hbase : NodeRep true 1 (.internal [some (.leaf t)]) [t] := by
    simp only [NodeRep]
    refine ⟨by norm_num, by norm_num, by norm_num, by norm_num, ?_, ?_⟩
    · intro k hk
      simp at hk
      subst hk
      rfl
    · intro l hl
      simp at hl
      subst hl
      exact ht
  have := newPath_rep h 1 (.internal [some (.leaf t)]) [t] hbase (by simp)
  rwa [Nat.add_comm 1 h] at this

theorem pushTail_none {T : Type} (vlen level : Nat) (tailNode : List T) :
    pushTail vlen level none tailNode = .error interfaceConversionMsg := by
  rw [pushTail.eq_def]

theorem pushTail_leaf {T : Type} (vlen level : Nat) (l tailNode : List T) :
    pushTail vlen level (some (.leaf l)) tailNode = .error interfaceConversionMsg := by
  rw [pushTail.eq_def]

theorem pushTail_internal_base {T : Type} (vlen level : Nat)
    (cs : List (Option (CNode T))) (tailNode : List T) (hlvl : level = shiftSize) :
    pushTail vlen level (some (.internal cs)) tailNode =
      .ok (.internal ((goCopy ((((vlen - 1) >>> level) &&& shiftBitMask) + 1) cs none).set
        (((vlen - 1) >>> level) &&& shiftBitMask) (some (.leaf tailNode)))) := by
  rw [pushTail.eq_def]
  simp [hlvl]

theorem pushTail_internal_child {T : Type} (vlen level : Nat)
    (cs : List (Option (CNode T))) (tailNode : List T)
    (hlvl : level ≠ shiftSize)
    (hc : (((vlen - 1) >>> level) &&& shiftBitMask) < cs.length) :
    pushTail vlen level (some (.internal cs)) tailNode =
      (pushTail vlen (level - shiftSize)
          (cs.getD (((vlen - 1) >>> level) &&& shiftBitMask) none) tailNode).map
        (fun nd => .internal ((goCopy ((((vlen - 1) >>> level) &&& shiftBitMask) + 1) cs none).set
          (((vlen - 1) >>> level) &&& shiftBitMask) (some nd))) := by
  have hlvl5 : ¬(level = 5) := by simpa using hlvl
  have hc' : (vlen - 1) >>> level &&& 31 < cs.length := by simpa using hc
  rw [pushTail.eq_def]
  simp [hlvl5, hc']

theorem pushTail_internal_newPath {T : Type} (vlen level : Nat)
    (cs : List (Option (CNode T))) (tailNode : List T)
    (hlvl : level ≠ shiftSize)
    (hc : ¬((((vlen - 1) >>> level) &&& shiftBitMask) < cs.length)) :
    pushTail vlen level (some (.internal cs)) tailNode =
      .ok (.internal ((goCopy ((((vlen - 1) >>> level) &&& shiftBitMask) + 1) cs none).set
        (((vlen - 1) >>> level) &&& shiftBitMask)
        (some (newPath (level - shiftSize) (.leaf tailNode))))) := by
  have hlvl5 : ¬(level = 5) := by simpa using hlvl
  have hc' : ¬((vlen - 1) >>> level &&& 31 < cs.length) := by simpa using hc
  rw [pushTail.eq_def]
  simp [hlvl5, hc']

/-- `pushTail` under the strict invariant: flushing a full 32-element
leaf into a trie that still has room appends the leaf. -/
theorem pushTail_rep {T : Type} :
    ∀ (h : Nat) (node : CNode T) (ls : List (List T)) (vlen : Nat) (tailNode : List T),
      NodeRep true h node ls →
      ((vlen - 1) / 32) % 32 ^ h = ls.length →
      ls.length < 32 ^ h →
      tailNode.length = 32 →
      ∃ nd, pushTail vlen (5 * h) (some node) tailNode = .ok nd ∧
        NodeRep true h nd (ls ++ [tailNode])
  | 0, _, _, _, _, hrep, _, _, _ => by simp [NodeRep] at hrep
  | 1, node, ls, vlen, tailNode, hrep, hidx, hroom, htl => by
    cases node with
    | leaf _ => simp [NodeRep] at hrep
    | internal cs =>
      simp only [NodeRep] at hrep
      obtain ⟨hls, hcs, hlscs, hstrict, hlook, hmem⟩ := hrep
      have hcslen : cs.length = ls.length := hstrict (by trivial)
      have hsub : ((vlen - 1) >>> (5 * 1)) &&& shiftBitMask = ls.length := by
        rw [shiftr_mul_five, and_mask_eq_mod]
        rw [← hidx]
        norm_num
      rw [pushTail_internal_base vlen (5 * 1) cs tailNode (by simp), hsub]
      have hgc : goCopy (ls.length + 1) cs none = cs ++ [none] :=
        goCopy_eq_append_one _ _ _ (by omega)
      rw [hgc]
      have hset : (cs ++ [none]).set ls.length (some (.leaf tailNode)) =
          cs ++ [some (.leaf tailNode)] := by
        rw [List.set_append_right _ _ (by omega)]
        rw [hcslen]
        simp
      rw [hset]
      refine ⟨_, rfl, ?_⟩
      simp only [NodeRep]
      have hroom32 : ls.length < 32 := by simpa using hroom
      refine ⟨by simp; omega, by simp; omega, by simp; omega, by simp; omega, ?_, ?_⟩
      · intro k hk
        simp only [List.length_append, List.length_singleton] at hk
        by_cases hkl : k < ls.length
        · rw [List.getD_append _ _ _ _ (by omega), List.getD_append _ _ _ _ (by omega)]
          exact hlook _ hkl
        · have hkeq : k = ls.length := by omega
          subst hkeq
          rw [List.getD_append_right _ _ _ _ (by omega),
            List.getD_append_right _ _ _ _ (by omega)]
          simp [hcslen]
      · intro l hl
        rcases List.mem_append.mp hl with hmem' | hmem'
        · exact hmem _ hmem'
        · simp at hmem'
          subst hmem'
          exact htl
  | (h+2), node, ls, vlen, tailNode, hrep, hidx, hroom, htl => by
    cases node with
    | leaf _ => simp [NodeRep] at hrep
    | internal cs =>
      simp only [NodeRep] at hrep
      obtain ⟨m, r, hm1, hm32, hr1, hrB, hlen, hcs, hmcs, hstrict, hch⟩ := hrep
      have hcslen : cs.length = m := hstrict (by trivial)
      set B := 32 ^ (h+1) with hB
      have hBpos : 0 < B := Nat.pos_pow_of_pos _ (by norm_num)
      have hsub : ((vlen - 1) >>> (5 * (h+2))) &&& shiftBitMask = ls.length / B := by
        rw [shiftr_mul_five, and_mask_eq_mod]
        have h1 : (vlen - 1) / 32 ^ (h+2) = ((vlen - 1) / 32) / B := by
          rw [Nat.div_div_eq_div_mul, hB, ← pow_succ']
        rw [h1, Nat.div_mod_eq_mod_mul_div]
        have h2 : B * 32 = 32 ^ (h+2) := by rw [hB]; ring
        rw [h2, hidx]
      have hmB : (m - 1) * B + B = B * m := by
        cases m with
        | zero => omega
        | succ m' => simp only [Nat.succ_sub_one]; ring
      have hlvlne : 5 * (h + 2) ≠ shiftSize := by rw [shiftSize_def]; omega
      have hstep : 5 * (h + 2) - shiftSize = 5 * (h + 1) := by rw [shiftSize_def]; omega
      by_cases hfull : r < B
      · -- the last child still has room: descend into it
        have hsubval : ls.length / B = m - 1 := by
          rw [hlen, Nat.mul_comm, Nat.mul_add_div hBpos, Nat.div_eq_of_lt hfull]
          omega
        have hsub' : ((vlen - 1) >>> (5 * (h+2))) &&& shiftBitMask = m - 1 := by
          rw [hsub, hsubval]
        obtain ⟨ck, hck, hrepk⟩ := hch (m - 1) (by omega)
        have hgetc : (((vlen - 1) >>> (5 * (h+2))) &&& shiftBitMask) < cs.length := by
          rw [hsub']
          omega
        have hslicelen : ((ls.drop ((m - 1) * B)).take B).length = r := by
          simp only [List.length_take, List.length_drop]
          omega
        have hlocal : ((vlen - 1) / 32) % B = r := by
          have h1 : ((vlen - 1) / 32) % B = (((vlen - 1) / 32) % 32 ^ (h+2)) % B := by
            rw [Nat.mod_mod_of_dvd]
            exact ⟨32, by rw [hB]; ring⟩
          rw [h1, hidx, hlen, Nat.mul_comm, Nat.mul_add_mod, Nat.mod_eq_of_lt hfull]
        have hcond1 : ((vlen - 1) / 32) % 32 ^ (h + 1) =
            ((ls.drop ((m - 1) * B)).take B).length := by
          rw [hslicelen, ← hB]
          exact hlocal
        have hcond2 : ((ls.drop ((m - 1) * B)).take B).length < 32 ^ (h + 1) := by
          rw [hslicelen, ← hB]
          exact hfull
        obtain ⟨child, hchild, hchildrep⟩ :=
          pushTail_rep (h+1) ck ((ls.drop ((m - 1) * B)).take B) vlen tailNode hrepk
            hcond1 hcond2 htl
        rw [pushTail_internal_child vlen (5 * (h+2)) cs tailNode hlvlne hgetc]
        rw [hsub', hck, hstep, hchild]
        have hm11 : m - 1 + 1 = m := by omega
        rw [hm11, goCopy_eq_self m cs none hcslen]
        refine ⟨_, rfl, ?_⟩
        simp only [NodeRep]
        have hlsapp : (ls ++ [tailNode]).length = (m - 1) * B + (r + 1) := by
          simp
          omega
        refine ⟨m, r + 1, hm1, hm32, by omega, by omega, hlsapp,
          by simp; omega, by simp; omega, by simp [hcslen], ?_⟩
        intro k hk
        by_cases hkm : k = m - 1
        · subst hkm
          refine ⟨child, ?_, ?_⟩
          · rw [getD_set_self _ _ _ _ (by omega)]
          · have hdrop : (ls ++ [tailNode]).drop ((m - 1) * B) =
                ls.drop ((m - 1) * B) ++ [tailNode] :=
              List.drop_append_of_le_length (by omega)
            rw [hdrop]
            have hlendrop : (ls.drop ((m - 1) * B)).length = r := by
              simp only [List.length_drop]
              omega
            have htake1 : (ls.drop ((m - 1) * B) ++ [tailNode]).take B =
                ls.drop ((m - 1) * B) ++ [tailNode] :=
              List.take_of_length_le (by simp [hlendrop]; omega)
            have htake2 : (ls.drop ((m - 1) * B)).take B = ls.drop ((m - 1) * B) :=
              List.take_of_length_le (by rw [hlendrop]; omega)
            rw [htake1, ← htake2]
            exact hchildrep
        · have hkm1 : k < m - 1 := by omega
          obtain ⟨ck2, hck2, hrepk2⟩ := hch k (by omega)
          refine ⟨ck2, ?_, ?_⟩
          · rw [getD_set_ne _ _ _ _ _ (fun hh => hkm hh.symm)]
            exact hck2
          · have hdrop : (ls ++ [tailNode]).drop (k * B) =
                ls.drop (k * B) ++ [tailNode] :=
              List.drop_append_of_le_length (by
                have h1 : (k + 1) * B ≤ (m - 1) * B := Nat.mul_le_mul_right _ (by omega)
                have h2 : (k + 1) * B = k * B + B := by ring
                omega)
            rw [hdrop]
            have hlong : B ≤ (ls.drop (k * B)).length := by
              simp only [List.length_drop]
              have h1 : (k + 1) * B ≤ (m - 1) * B := Nat.mul_le_mul_right _ (by omega)
              have h2 : (k + 1) * B = k * B + B := by ring
              omega
            rw [List.take_append_of_le_length hlong]
            exact hrepk2
      · -- the last child is full: a fresh path is created for the new leaf
        push_neg at hfull
        have hreq : r = B := le_antisymm hrB hfull
        have hmm1 : (m - 1) * B + B = m * B := by
          cases m with
          | zero => omega
          | succ m' => simp only [Nat.succ_sub_one]; ring
        have hlenB : ls.length = m * B := by omega
        have hsubval : ls.length / B = m := by
          rw [hlenB, Nat.mul_div_cancel _ hBpos]
        have hsub' : ((vlen - 1) >>> (5 * (h+2))) &&& shiftBitMask = m := by
          rw [hsub, hsubval]
        have hgetc : ¬((((vlen - 1) >>> (5 * (h+2))) &&& shiftBitMask) < cs.length) := by
          rw [hsub']
          omega
        rw [pushTail_internal_newPath vlen (5 * (h+2)) cs tailNode hlvlne hgetc]
        rw [hstep, hsub']
        have hgc : goCopy (m + 1) cs none = cs ++ [none] :=
          goCopy_eq_append_one _ _ _ (by omega)
        rw [hgc]
        have hset : (cs ++ [none]).set m (some (newPath (5 * (h+1)) (.leaf tailNode))) =
            cs ++ [some (newPath (5 * (h+1)) (.leaf tailNode))] := by
          rw [List.set_append_right _ _ (by omega)]
          rw [hcslen]
          simp
        rw [hset]
        have hm32' : m < 32 := by
          by_contra hcon
          push_neg at hcon
          have h32 : 32 ^ (h + 2) = 32 * B := by rw [hB]; ring
          have hle : 32 * B ≤ m * B := Nat.mul_le_mul_right _ hcon
          omega
        refine ⟨_, rfl, ?_⟩
        simp only [NodeRep]
        have hmm : m + 1 - 1 = m := by omega
        have hlsapp : (ls ++ [tailNode]).length = (m + 1 - 1) * B + 1 := by
          rw [hmm]
          simp
          omega
        refine ⟨m + 1, 1, by omega, by omega, by omega, by omega, hlsapp,
          by simp; omega, by simp; omega, by simp [hcslen], ?_⟩
        intro k hk
        by_cases hkm : k = m
        · subst hkm
          refine ⟨newPath (5 * (h+1)) (.leaf tailNode), ?_, ?_⟩
          · rw [List.getD_append_right _ _ _ _ (by omega), hcslen]
            simp
          · have hdrop : (ls ++ [tailNode]).drop (k * B) = [tailNode] := by
              have hklen : k * B = ls.length := by rw [hlenB]
              rw [hklen, List.drop_append_of_le_length (le_refl _), List.drop_length]
              simp
            rw [hdrop]
            rw [List.take_of_length_le (by simp; omega)]
            exact newPath_leaf_rep h tailNode htl
        · have hkm1 : k < m := by omega
          obtain ⟨ck2, hck2, hrepk2⟩ := hch k hkm1
          refine ⟨ck2, ?_, ?_⟩
          · rw [List.getD_append _ _ _ _ (by omega)]
            exact hck2
          · have hdrop : (ls ++ [tailNode]).drop (k * B) =
                ls.drop (k * B) ++ [tailNode] :=
              List.drop_append_of_le_length (by
                have h1 : (k + 1) * B ≤ m * B := Nat.mul_le_mul_right _ (by omega)
                have h2 : (k + 1) * B = k * B + B := by ring
                omega)
            rw [hdrop]
            have hlong : B ≤ (ls.drop (k * B)).length := by
              simp only [List.length_drop]
              have h1 : (k + 1) * B ≤ m * B := Nat.mul_le_mul_right _ (by omega)
              have h2 : (k + 1) * B = k * B + B := by ring
              omega
            rw [List.take_append_of_le_length hlong]
            exact hrepk2


/-! ## `pushLeafNode` and `Append`: invariant preservation -/

theorem one_shiftl (n : Nat) : (1 : Nat) <<< (5 * n) = 32 ^ n := by
  rw [Nat.shiftLeft_eq, one_mul, pow_mul]
  norm_num

theorem trieLeaves_append {T : Type} (es t : List T) (toff : Nat)
    (htoff : toff ≤ es.length) (hmod : toff % 32 = 0) :
    trieLeaves (es ++ t) toff = trieLeaves es toff := by
  unfold trieLeaves
  apply List.map_congr_left
  intro k hk
  rw [List.mem_range] at hk
  have hwin : 32 * k + 32 ≤ toff := by omega
  rw [List.drop_append_of_le_length (by omega)]
  rw [List.take_append_of_le_length (by simp only [List.length_drop]; omega)]

theorem trieLeaves_append_block {T : Type} (es t : List T) (toff : Nat)
    (hmod : toff % 32 = 0) (hlen : es.length = toff + 32) :
    trieLeaves (es ++ t) (toff + 32) = trieLeaves es toff ++ [es.drop toff] := by
  unfold trieLeaves
  have hq : (toff + 32) / 32 = toff / 32 + 1 := by omega
  rw [hq, List.range_succ, List.map_append]
  congr 1
  · apply List.map_congr_left
    intro k hk
    rw [List.mem_range] at hk
    have hwin : 32 * k + 32 ≤ toff := by omega
    rw [List.drop_append_of_le_length (by omega)]
    rw [List.take_append_of_le_length (by simp only [List.length_drop]; omega)]
  · have h32 : 32 * (toff / 32) = toff := by omega
    simp only [List.map_cons, List.map_nil, h32]
    rw [List.drop_append_of_le_length (by omega)]
    rw [List.take_append_of_le_length (by simp only [List.length_drop]; omega)]
    rw [List.take_of_length_le (by simp only [List.length_drop]; omega)]

theorem tailOffset_add_small {T : Type} (v w : PVec T) (b : Nat) (hb : 1 ≤ b)
    (hw : w.len = v.len + b) (h : v.len + b ≤ v.tailOffset + 32) :
    w.tailOffset = v.tailOffset := by
  rw [tailOffset_eq] at h ⊢
  rw [tailOffset_eq, hw]
  omega

theorem tailOffset_add_block {T : Type} (v w : PVec T) (b : Nat) (hb1 : 1 ≤ b)
    (hb32 : b ≤ 32) (hw : w.len = v.len + b) (h : v.len = v.tailOffset + 32) :
    w.tailOffset = v.len := by
  rw [tailOffset_eq] at h
  rw [tailOffset_eq, hw]
  omega

/-- Flushing a full tail with `pushLeafNode` preserves the trie invariant,
appending the tail as one new leaf (growing the height exactly when the
trie was full). -/
theorem pushLeafNode_rep {T : Type} {v : PVec T} {es : List T}
    (hrep : VRep true v es) (hfull : v.len = v.tailOffset + 32) :
    ∃ v' : PVec T, pushLeafNode v v.tail = .ok v' ∧
      v'.len = v.len ∧ v'.tail = v.tail ∧
      ∃ h' : Nat, v'.shift = 5 * h' ∧ 1 ≤ h' ∧
        NodeRep true h' v'.root (trieLeaves es v.tailOffset ++ [v.tail]) ∧
        v.tailOffset / 32 + 1 ≤ 32 ^ h' ∧
        (h' = 1 ∨ 32 ^ (h' - 1) < v.tailOffset / 32 + 1) := by
  obtain ⟨hlen, htail, h, hshift, hh1, hnode, hcap, hlow⟩ := hrep
  have hmod : v.tailOffset % 32 = 0 := tailOffset_mod v
  have htlen : v.tail.length = 32 := by
    rw [htail]
    simp only [List.length_drop]
    omega
  have hlslen : (trieLeaves es v.tailOffset).length = v.tailOffset / 32 :=
    trieLeaves_length es v.tailOffset
  have hcond : v.len >>> shiftSize = v.tailOffset / 32 + 1 := by
    rw [shiftr_five]
    omega
  have hshl : (1 : Nat) <<< v.shift = 32 ^ h := by
    rw [hshift]
    exact one_shiftl h
  by_cases hgrow : v.tailOffset / 32 = 32 ^ h
  · -- root overflow: wrap the old root one level deeper
    have hc : (1 : Nat) <<< v.shift < v.len >>> shiftSize := by
      rw [hcond, hshl]
      omega
    refine ⟨{ root := .internal [some v.root, some (newPath v.shift (.leaf v.tail))],
              tail := v.tail, len := v.len, shift := v.shift + shiftSize },
      ?_, rfl, rfl, h + 1, ?_, by omega, ?_, ?_, ?_⟩
    · unfold pushLeafNode
      rw [if_pos hc]
    · show v.shift + shiftSize = 5 * (h + 1)
      rw [hshift, shiftSize_def]
      ring
    · -- the two-child root represents old leaves ++ the new one
      show NodeRep true (h + 1)
        (.internal [some v.root, some (newPath v.shift (.leaf v.tail))])
        (trieLeaves es v.tailOffset ++ [v.tail])
      obtain ⟨h0, rfl⟩ : ∃ h0, h = h0 + 1 := ⟨h - 1, by omega⟩
      show NodeRep true (h0 + 1 + 1 + 1 - 1) _ _
      simp only [NodeRep]
      have hpow1 : (1 : Nat) ≤ 32 ^ (h0 + 1) := Nat.one_le_pow _ _ (by norm_num)
      refine ⟨2, 1, by omega, by omega, by omega, by omega, ?_, by simp, by simp,
        by simp, ?_⟩
      · simp only [List.length_append, List.length_singleton, hlslen, hgrow]
        omega
      · intro k hk
        match k, hk with
        | 0, _ =>
          refine ⟨v.root, rfl, ?_⟩
          simp only [Nat.zero_mul, List.drop_zero]
          rw [List.take_left' (by rw [hlslen, hgrow])]
          exact hnode
        | 1, _ =>
          refine ⟨newPath v.shift (.leaf v.tail), rfl, ?_⟩
          rw [one_mul, List.drop_left' (by rw [hlslen, hgrow])]
          rw [List.take_of_length_le (by simp only [List.length_singleton]; omega)]
          rw [hshift]
          exact newPath_leaf_rep h0 v.tail htlen
    · have hpow : 32 ^ (h + 1) = 32 ^ h * 32 := by ring
      have hpow1 : (1 : Nat) ≤ 32 ^ h := Nat.one_le_pow _ _ (by norm_num)
      omega
    · right
      simp only [Nat.add_sub_cancel]
      omega
  · -- no overflow: push the tail down a single copied path
    have hlt : v.tailOffset / 32 < 32 ^ h := by omega
    have hc : ¬((1 : Nat) <<< v.shift < v.len >>> shiftSize) := by
      rw [hcond, hshl]
      omega
    obtain ⟨nd, hnd, hndrep⟩ :=
      pushTail_rep h v.root (trieLeaves es v.tailOffset) v.len v.tail hnode
        (by rw [hlslen]; have : (v.len - 1) / 32 = v.tailOffset / 32 := by omega
            rw [this, Nat.mod_eq_of_lt hlt])
        (by rw [hlslen]; exact hlt) htlen
    have hnd' : pushTail v.len v.shift (some v.root) v.tail = .ok nd := by
      rw [hshift]
      exact hnd
    refine ⟨{ root := nd, tail := v.tail, len := v.len, shift := v.shift },
      ?_, rfl, rfl, h, hshift, hh1, hndrep, by omega, ?_⟩
    · unfold pushLeafNode
      rw [if_neg hc, hnd']
      rfl
    · rcases hlow with hl | hl
      · exact Or.inl hl
      · exact Or.inr (by omega)

theorem appendLoop_nil {T : Type} (v : PVec T) : appendLoop v [] = .ok v := by
  rw [appendLoop.eq_def]

theorem appendLoop_cons_flush {T : Type} (v : PVec T) (x : T) (xs : List T) (b : Nat)
    (hfree : nodeSize - (v.len - v.tailOffset) = 0)
    (hb : b = uintMin (x :: xs).length nodeSize) :
    appendLoop v (x :: xs) =
      match pushLeafNode v v.tail with
      | .error e => .error e
      | .ok r1 =>
        appendLoop { r1 with tail := [] ++ (x :: xs).take b, len := r1.len + b }
          ((x :: xs).drop b) := by
  subst hb
  rw [appendLoop.eq_def]
  simp only [hfree, dite_true, dif_pos]

theorem appendLoop_cons_fill {T : Type} (v : PVec T) (x : T) (xs : List T) (b : Nat)
    (hfree : ¬(nodeSize - (v.len - v.tailOffset) = 0))
    (hb : b = uintMin (x :: xs).length (nodeSize - (v.len - v.tailOffset))) :
    appendLoop v (x :: xs) =
      appendLoop { v with tail := v.tail ++ (x :: xs).take b, len := v.len + b }
        ((x :: xs).drop b) := by
  subst hb
  rw [appendLoop.eq_def]
  simp only [hfree, dite_false, dif_neg, not_false_iff]

theorem uintMin_eq_min (a b : Nat) : uintMin a b = min a b := by
  unfold uintMin
  split <;> omega

/-- The `Append` loop preserves the strict invariant and appends the
remaining items to the abstract element list. -/
theorem appendLoop_rep {T : Type} (n : Nat) :
    ∀ (remaining : List T) (v : PVec T) (es : List T),
      remaining.length ≤ n → VRep true v es →
      ∃ v', appendLoop v remaining = .ok v' ∧ VRep true v' (es ++ remaining) := by
  induction n with
  | zero =>
    intro remaining v es hn hrep
    have hnil : remaining = [] := List.eq_nil_of_length_eq_zero (by omega)
    subst hnil
    rw [appendLoop_nil]
    exact ⟨v, rfl, by simpa using hrep⟩
  | succ n ih =>
    intro remaining v es hn hrep
    match remaining with
    | [] =>
      rw [appendLoop_nil]
      exact ⟨v, rfl, by simpa using hrep⟩
    | x :: xs =>
      have htoffle : v.tailOffset ≤ v.len := tailOffset_le v
      have htofflen : v.len - v.tailOffset ≤ 32 := len_sub_tailOffset_le v
      have hmod : v.tailOffset % 32 = 0 := tailOffset_mod v
      have hlen : v.len = es.length := hrep.1
      have htail : v.tail = es.drop v.tailOffset := hrep.2.1
      have hn' : (x :: xs).length ≤ n + 1 := hn
      by_cases hfree : nodeSize - (v.len - v.tailOffset) = 0
      · -- the tail is full: flush it, then start a fresh tail with one batch
        have hfull : v.len = v.tailOffset + 32 := by
          simp only [nodeSize_def] at hfree
          omega
        obtain ⟨r1, hr1, hr1len, hr1tail, h', hshift', hh1', hnode', hcap', hlow'⟩ :=
          pushLeafNode_rep hrep hfull
        set b := uintMin (x :: xs).length nodeSize with hb
        have hbmin : b = min (x :: xs).length 32 := by
          rw [hb, uintMin_eq_min, nodeSize_def]
        have hb1 : 1 ≤ b := by
          rw [hbmin]
          simp only [List.length_cons]
          omega
        have hb32 : b ≤ 32 := by rw [hbmin]; omega
        have hble : b ≤ (x :: xs).length := by rw [hbmin]; omega
        set v2 : PVec T :=
          { r1 with tail := [] ++ (x :: xs).take b, len := r1.len + b } with hv2
        have happ : appendLoop v (x :: xs) = appendLoop v2 ((x :: xs).drop b) := by
          rw [appendLoop_cons_flush v x xs b hfree hb, hr1]
        have hv2len : v2.len = v.len + b := by rw [hv2, hr1len]
        have htoff2 : v2.tailOffset = v.len :=
          tailOffset_add_block v v2 b hb1 hb32 hv2len hfull
        have hrep2 : VRep true v2 (es ++ (x :: xs).take b) := by
          refine ⟨?_, ?_, h', ?_, hh1', ?_, ?_, ?_⟩
          · show v2.len = (es ++ (x :: xs).take b).length
            rw [hv2len, hlen]
            simp only [List.length_append, List.length_take]
            omega
          · show v2.tail = (es ++ (x :: xs).take b).drop v2.tailOffset
            rw [htoff2, hlen, List.drop_left' rfl]
            rfl
          · show v2.shift = 5 * h'
            rw [hv2]
            exact hshift'
          · show NodeRep true h' v2.root (trieLeaves (es ++ (x :: xs).take b) v2.tailOffset)
            have htoffeq : v2.tailOffset = v.tailOffset + 32 := by rw [htoff2, hfull]
            rw [htoffeq, trieLeaves_append_block es _ v.tailOffset hmod (by omega)]
            rw [← htail]
            exact hnode'
          · rw [htoff2, hfull]
            have : (v.tailOffset + 32) / 32 = v.tailOffset / 32 + 1 := by omega
            rw [this]
            exact hcap'
          · rw [htoff2, hfull]
            have : (v.tailOffset + 32) / 32 = v.tailOffset / 32 + 1 := by omega
            rw [this]
            exact hlow'
        obtain ⟨v', hv', hrep'⟩ := ih ((x :: xs).drop b) v2 (es ++ (x :: xs).take b)
          (by simp only [List.length_drop, List.length_cons] at *; omega) hrep2
        refine ⟨v', by rw [happ, hv'], ?_⟩
        rwa [List.append_assoc, List.take_append_drop] at hrep'
      · -- room in the tail: copy the tail and extend it with one batch
        set b := uintMin (x :: xs).length (nodeSize - (v.len - v.tailOffset)) with hb
        have hbmin : b = min (x :: xs).length (32 - (v.len - v.tailOffset)) := by
          rw [hb, uintMin_eq_min, nodeSize_def]
        have hfree' : v.len - v.tailOffset < 32 := by
          simp only [nodeSize_def] at hfree
          omega
        have hb1 : 1 ≤ b := by
          rw [hbmin]
          simp only [List.length_cons]
          omega
        have hbsmall : v.len + b ≤ v.tailOffset + 32 := by
          rw [hbmin]
          omega
        have hble : b ≤ (x :: xs).length := by rw [hbmin]; omega
        set v2 : PVec T :=
          { v with tail := v.tail ++ (x :: xs).take b, len := v.len + b } with hv2
        have happ : appendLoop v (x :: xs) = appendLoop v2 ((x :: xs).drop b) := by
          rw [appendLoop_cons_fill v x xs b hfree hb]
        have htoff2 : v2.tailOffset = v.tailOffset :=
          tailOffset_add_small v v2 b hb1 rfl hbsmall
        obtain ⟨_, htl, h, hshift, hh1, hnode, hcap, hlow⟩ := hrep
        have hrep2 : VRep true v2 (es ++ (x :: xs).take b) := by
          refine ⟨?_, ?_, h, hshift, hh1, ?_, ?_, ?_⟩
          · show v2.len = (es ++ (x :: xs).take b).length
            simp only [hv2, List.length_append, List.length_take]
            omega
          · show v2.tail = (es ++ (x :: xs).take b).drop v2.tailOffset
            rw [htoff2, List.drop_append_of_le_length (by omega)]
            show v.tail ++ (x :: xs).take b = _
            rw [htl]
          · show NodeRep true h v2.root (trieLeaves (es ++ (x :: xs).take b) v2.tailOffset)
            rw [htoff2, trieLeaves_append es _ v.tailOffset (by omega) hmod]
            exact hnode
          · rw [htoff2]
            exact hcap
          · rw [htoff2]
            exact hlow
        obtain ⟨v', hv', hrep'⟩ := ih ((x :: xs).drop b) v2 (es ++ (x :: xs).take b)
          (by simp only [List.length_drop, List.length_cons] at *; omega) hrep2
        refine ⟨v', by rw [happ, hv'], ?_⟩
        rwa [List.append_assoc, List.take_append_drop] at hrep'

/-- Go `Vector.Append` preserves the strict invariant and appends the
items to the abstract element list. -/
theorem append_rep {T : Type} {v : PVec T} {es : List T} (items : List T)
    (hrep : VRep true v es) :
    ∃ v', append v items = .ok v' ∧ VRep true v' (es ++ items) :=
  appendLoop_rep items.length items v es (le_refl _) hrep

/-- The vector `NewVector` starts from satisfies the invariant with no
elements. -/
theorem empty_rep {T : Type} :
    VRep true
      ({ root := emptyCommonNode, shift := shiftSize, tail := [], len := 0 } : PVec T)
      [] := by
  refine ⟨rfl, rfl, 1, rfl, le_refl 1, ?_, by simp [tailOffset], Or.inl rfl⟩
  show NodeRep true 1 (.internal []) (trieLeaves [] _)
  simp only [NodeRep, trieLeaves, tailOffset]
  norm_num

/-- `NewVector` builds a vector satisfying the strict invariant whose
elements are exactly the requested items. -/
theorem newVector_rep {T : Type} (items : List T) :
    ∃ v, newVector items = .ok v ∧ VRep true v items := by
  obtain ⟨v, hv, hrep⟩ := append_rep items empty_rep
  exact ⟨v, hv, by simpa using hrep⟩

/-! ## Claim C2: the vector index law -/

/-- A vector whose elements all still fit in the tail satisfies the
strict invariant (this is what `NewVector` produces for fewer than 32
items). -/
theorem small_rep {T : Type} (es : List T) (hlen : es.length ≤ nodeSize) :
    VRep true
      ({ root := emptyCommonNode, shift := shiftSize, tail := es, len := es.length } : PVec T)
      es := by
  have htoff : PVec.tailOffset
      ({ root := emptyCommonNode, shift := shiftSize, tail := es, len := es.length } : PVec T)
      = 0 := by
    unfold tailOffset
    simp only [nodeSize_def] at hlen ⊢
    by_cases hcase : es.length < 32
    · rw [if_pos hcase]
    · rw [if_neg hcase]
      have h32 : es.length = 32 := by omega
      rw [h32]
      decide
  refine ⟨rfl, ?_, 1, rfl, le_refl 1, ?_, ?_, Or.inl rfl⟩
  · rw [htoff]
    rfl
  · show NodeRep true 1 (.internal []) (trieLeaves es _)
    rw [htoff]
    simp only [NodeRep, trieLeaves]
    norm_num
  · rw [htoff]
    norm_num

/-- C2: Vector index law — for a represented vector `v` with elements
`es` and any index `i < v.Len()`, `Set(v, i, x)` succeeds, `Get` of the
result at `i` returns `x`, and `Get` at every other valid index `j ≠ i`
returns the same element as `Get(v, j)`. -/
theorem claim_C2_index_law {T : Type} [Inhabited T] {s : Bool} {v : PVec T} {es : List T}
    (hrep : VRep s v es) (i : Nat) (hi : i < es.length) (x : T) :
    ∃ v', PVec.set v (i : Int) x = .ok v' ∧
      PVec.get v' (i : Int) = .ok x ∧
      ∀ j : Nat, j < es.length → j ≠ i → PVec.get v' (j : Int) = PVec.get v (j : Int) := by
  obtain ⟨v', hset, hrep', hlen', hshift'⟩ := set_rep hrep i hi x
  refine ⟨v', hset, ?_, ?_⟩
  · have := get_rep hrep' i (by simpa using hi) default
    rwa [getD_set_self es i x default hi] at this
  · intro j hj hji
    have h1 := get_rep hrep' j (by simpa using hj) default
    have h2 := get_rep hrep j hj default
    rw [getD_set_ne es i j x default (fun h => hji h.symm)] at h1
    rw [h1, h2]

theorem claim_C2_index_law_witness :
    ∃ v', PVec.set
        ({ root := emptyCommonNode, shift := shiftSize, tail := [10, 20], len := 2 } : PVec Nat)
        ((0 : Nat) : Int) 7 = .ok v' ∧
      PVec.get v' ((0 : Nat) : Int) = .ok 7 ∧
      ∀ j : Nat, j < ([10, 20] : List Nat).length → j ≠ 0 →
        PVec.get v' ((j : Nat) : Int) = PVec.get
          ({ root := emptyCommonNode, shift := shiftSize, tail := [10, 20], len := 2 } : PVec Nat)
          ((j : Nat) : Int) :=
  claim_C2_index_law (small_rep [10, 20] (by norm_num)) 0 (by norm_num) 7

/-! ## Claim C5: boundary failures -/

/-- C5: Boundary failures — `Get` and `Set` at any index outside
`[0, len)` (in particular `-1` and `len`) fail with the
index-out-of-bounds error, and `Slice` with `start < 0`, `start > stop`
or `stop > len` fails with an invalid-argument error.  In the model an
`Except.error` result carries no vector, so no new handle is produced
and the argument handle is untouched. -/
theorem claim_C5_boundary {T : Type} [Inhabited T] (v : PVec T) (x : T) (i start stop : Int)
    (hi : i < 0 ∨ (v.len : Int) ≤ i)
    (hs : start < 0 ∨ stop < start ∨ (v.len : Int) < stop) :
    PVec.get v i = .error "Index out of bounds" ∧
    PVec.set v i x = .error "Index out of bounds" ∧
    ∃ msg, PVec.slice v start stop = .error msg := by
  have hcond : i < 0 ∨ v.len ≤ i.toNat := by omega
  refine ⟨?_, ?_, ?_⟩
  · unfold PVec.get
    rw [if_pos hcond]
  · unfold PVec.set
    rw [if_pos hcond]
  · unfold PVec.slice assertSliceOk
    rcases hs with h | h | h
    · rw [if_pos h]
      exact ⟨_, rfl⟩
    · by_cases h0 : start < 0
      · rw [if_pos h0]
        exact ⟨_, rfl⟩
      · rw [if_neg h0, if_pos (by omega)]
        exact ⟨_, rfl⟩
    · by_cases h0 : start < 0
      · rw [if_pos h0]
        exact ⟨_, rfl⟩
      · by_cases h1 : start > stop
        · rw [if_neg h0, if_pos h1]
          exact ⟨_, rfl⟩
        · rw [if_neg h0, if_neg h1, if_pos (by omega)]
          exact ⟨_, rfl⟩

theorem claim_C5_boundary_witness :
    PVec.get ({ root := emptyCommonNode, shift := shiftSize, tail := [5], len := 1 } : PVec Nat)
        (-1) = .error "Index out of bounds" ∧
    PVec.set ({ root := emptyCommonNode, shift := shiftSize, tail := [5], len := 1 } : PVec Nat)
        (-1) 0 = .error "Index out of bounds" ∧
    ∃ msg, PVec.slice
        ({ root := emptyCommonNode, shift := shiftSize, tail := [5], len := 1 } : PVec Nat)
        0 2 = .error msg :=
  claim_C5_boundary _ 0 (-1) 0 2 (Or.inl (by norm_num)) (Or.inr (Or.inr (by norm_num)))

/-! ## Claim C4: the trie growth condition -/

/-- C4 (amended): during a tail flush of a represented vector,
`pushLeafNode` grows the trie — wrapping the old root one level deeper
and increasing `shift` by 5 — exactly when `v.len >>> shiftSize`
(the length shifted by the CONSTANT 5, i.e. the number of full leaves)
exceeds `1 <<< v.shift`; otherwise the leaf is pushed along a single
copied path and `shift` is unchanged.  (The spec states the condition
with the length shifted by the variable `shift` instead; see the
counterexample.) -/
theorem claim_C4_growth {T : Type} {v : PVec T} {es : List T}
    (hrep : VRep true v es) (hfull : v.len = v.tailOffset + 32) :
    ∃ v', pushLeafNode v v.tail = .ok v' ∧ v'.len = v.len ∧
      (1 <<< v.shift < v.len >>> shiftSize →
        v'.shift = v.shift + shiftSize ∧
        v'.root = .internal [some v.root, some (newPath v.shift (.leaf v.tail))]) ∧
      (¬(1 <<< v.shift < v.len >>> shiftSize) → v'.shift = v.shift) := by
  by_cases hc : (1 : Nat) <<< v.shift < v.len >>> shiftSize
  · refine ⟨{ root := .internal [some v.root, some (newPath v.shift (.leaf v.tail))],
              tail := v.tail, len := v.len, shift := v.shift + shiftSize },
      ?_, rfl, fun _ => ⟨rfl, rfl⟩, fun hnc => absurd hc hnc⟩
    unfold pushLeafNode
    rw [if_pos hc]
  · obtain ⟨hlen, htail, h, hshift, hh1, hnode, hcap, hlow⟩ := hrep
    have hmod : v.tailOffset % 32 = 0 := tailOffset_mod v
    have htlen : v.tail.length = 32 := by
      rw [htail]
      simp only [List.length_drop]
      omega
    have hlslen : (trieLeaves es v.tailOffset).length = v.tailOffset / 32 :=
      trieLeaves_length es v.tailOffset
    have hcond : v.len >>> shiftSize = v.tailOffset / 32 + 1 := by
      rw [shiftr_five]
      omega
    have hshl : (1 : Nat) <<< v.shift = 32 ^ h := by
      rw [hshift]
      exact one_shiftl h
    have hlt : v.tailOffset / 32 < 32 ^ h := by
      rw [hcond, hshl] at hc
      omega
    obtain ⟨nd, hnd, _⟩ :=
      pushTail_rep h v.root (trieLeaves es v.tailOffset) v.len v.tail hnode
        (by rw [hlslen]; have heq : (v.len - 1) / 32 = v.tailOffset / 32 := by omega
            rw [heq, Nat.mod_eq_of_lt hlt])
        (by rw [hlslen]; exact hlt) htlen
    have hnd' : pushTail v.len v.shift (some v.root) v.tail = .ok nd := by
      rw [hshift]
      exact hnd
    refine ⟨{ root := nd, tail := v.tail, len := v.len, shift := v.shift },
      ?_, rfl, fun hcc => absurd hcc hc, fun _ => rfl⟩
    unfold pushLeafNode
    rw [if_neg hc, hnd']
    rfl

theorem claim_C4_growth_witness :
    ∃ v', pushLeafNode
        ({ root := emptyCommonNode, shift := shiftSize, tail := List.replicate 32 (0 : Nat),
           len := 32 } : PVec Nat) (List.replicate 32 (0 : Nat)) = .ok v' ∧
      v'.len = 32 ∧
      ((1 : Nat) <<< shiftSize < 32 >>> shiftSize →
        v'.shift = shiftSize + shiftSize ∧
        v'.root = .internal [some emptyCommonNode,
          some (newPath shiftSize (.leaf (List.replicate 32 (0 : Nat))))]) ∧
      (¬((1 : Nat) <<< shiftSize < 32 >>> shiftSize) → v'.shift = shiftSize) :=
  claim_C4_growth (small_rep (List.replicate 32 0) (by norm_num)) (by decide)

/-- C4 counterexample: the vector of 32800 elements has shift 10 and a
full tail; flushing it GROWS the trie (the code's condition
`32800 >>> 5 = 1025 > 1 <<< 10 = 1024` holds) although the claim's
condition `len >>> shift > 1 <<< shift` is false
(`32800 >>> 10 = 32 ≤ 1024`). -/
theorem claim_C4_counterexample :
    ∃ (v v' : PVec Nat),
      newVector (List.replicate 32800 0) = .ok v ∧
      pushLeafNode v v.tail = .ok v' ∧
      v'.shift = v.shift + shiftSize ∧
      ¬((1 : Nat) <<< v.shift < v.len >>> v.shift) := by
  obtain ⟨v, hv, hrep⟩ := newVector_rep (List.replicate 32800 (0 : Nat))
  obtain ⟨hlen, htail, h, hshift, hh1, hnode, hcap, hlow⟩ := hrep
  have hlen' : v.len = 32800 := by
    rw [hlen, List.length_replicate]
  have htoff : v.tailOffset = 32768 := by
    rw [tailOffset_eq, hlen']
  have hdiv : (32768 : Nat) / 32 = 1024 := by norm_num
  have hcap' : 1024 ≤ 32 ^ h := by
    rw [htoff, hdiv] at hcap
    exact hcap
  have hlow' : h = 1 ∨ 32 ^ (h - 1) < 1024 := by
    rw [htoff, hdiv] at hlow
    exact hlow
  have hh2 : h = 2 := by
    have hge : 2 ≤ h := by
      by_contra hcon
      push_neg at hcon
      have hle := Nat.pow_le_pow_right (by norm_num : 1 ≤ 32) (by omega : h ≤ 1)
      norm_num at hle
      omega
    have hlt2 : h - 1 < 2 := by
      rcases hlow' with h1 | hlt
      · omega
      · by_contra hcon
        push_neg at hcon
        have hge2 := Nat.pow_le_pow_right (by norm_num : 1 ≤ 32) hcon
        norm_num at hge2
        omega
    omega
  have hshift10 : v.shift = 10 := by
    rw [hshift, hh2]
  have hgrowc : (1 : Nat) <<< v.shift < v.len >>> shiftSize := by
    rw [hshift10, hlen']
    decide
  refine ⟨v, { root := .internal [some v.root, some (newPath v.shift (.leaf v.tail))],
               tail := v.tail, len := v.len, shift := v.shift + shiftSize },
    hv, ?_, rfl, ?_⟩
  · unfold pushLeafNode
    rw [if_pos hgrowc]
  · rw [hshift10, hlen']
    decide

/-! ## Claim C3: the size laws, and the `Set`-then-`Append` panic -/

/-- C3 (code bug): the vector size law `Len(Append(v, items)) =
Len(v) + len(items)` fails on a reachable vector: for the 2080-element
vector, `Set(0, 1)` pads the root's child array to 32 slots with nils
(`doAssoc` copies into a `make([]commonNode, nodeSize)` array), and the
next `Append` flush takes `pushTail`'s `subIdx < len(parentNode)` branch
into such a nil slot, so the `parent.([]commonNode)` type assertion
panics (modelled as the `interface conversion` error) instead of
returning a longer vector. -/
theorem claim_C3_append_panics :
    ∃ (v v2 : PVec Nat),
      newVector (List.replicate 2080 0) = .ok v ∧
      PVec.set v (0 : Int) 1 = .ok v2 ∧
      PVec.append v2 [0] = .error interfaceConversionMsg := by
  obtain ⟨v, hv, hrep⟩ := newVector_rep (List.replicate 2080 (0 : Nat))
  obtain ⟨hlen, htail, h, hshift, hh1, hnode, hcap, hlow⟩ := hrep
  have hlen' : v.len = 2080 := by
    rw [hlen, List.length_replicate]
  have htoff : v.tailOffset = 2048 := by
    rw [tailOffset_eq, hlen']
  have hdiv : (2048 : Nat) / 32 = 64 := by norm_num
  have hh2 : h = 2 := by
    have hcap' : 64 ≤ 32 ^ h := by
      rw [htoff, hdiv] at hcap
      exact hcap
    have hlow' : h = 1 ∨ 32 ^ (h - 1) < 64 := by
      rw [htoff, hdiv] at hlow
      exact hlow
    have hge : 2 ≤ h := by
      by_contra hcon
      push_neg at hcon
      have hle := Nat.pow_le_pow_right (by norm_num : 1 ≤ 32) (by omega : h ≤ 1)
      norm_num at hle
      omega
    have hlt2 : h - 1 < 2 := by
      rcases hlow' with h1 | hlt
      · omega
      · by_contra hcon
        push_neg at hcon
        have hge2 := Nat.pow_le_pow_right (by norm_num : 1 ≤ 32) hcon
        norm_num at hge2
        omega
    omega
  have hshift10 : v.shift = 10 := by
    rw [hshift, hh2]
  rw [hh2] at hnode
  have hlslen : (trieLeaves (List.replicate 2080 (0 : Nat)) v.tailOffset).length = 64 := by
    rw [trieLeaves_length, htoff, hdiv]
  -- expose the root: a strict internal node with exactly two children
  obtain ⟨cs, hroot⟩ : ∃ cs, v.root = .internal cs := by
    cases hr : v.root with
    | leaf l =>
      rw [hr] at hnode
      have hnode0 : NodeRep true (0 + 2) (.leaf l)
          (trieLeaves (List.replicate 2080 (0 : Nat)) v.tailOffset) := hnode
      simp [NodeRep] at hnode0
    | internal cs => exact ⟨cs, rfl⟩
  rw [hroot] at hnode
  have hnode0 : NodeRep true (0 + 2) (.internal cs)
      (trieLeaves (List.replicate 2080 (0 : Nat)) v.tailOffset) := hnode
  simp only [NodeRep] at hnode0
  obtain ⟨m, r, hm1, hm32, hr1, hrB, hlsl, hcs32, hmcs, hstrict, hch⟩ := hnode0
  rw [hlslen] at hlsl
  norm_num at hlsl hrB
  have hmr : m = 2 ∧ r = 32 := by
    constructor <;> omega
  have hcslen : cs.length = 2 := by
    rw [hstrict (by trivial)]
    omega
  obtain ⟨c0, hc0, hc0rep⟩ := hch 0 (by omega)
  obtain ⟨cs0, hc0eq⟩ : ∃ cs0, c0 = .internal cs0 := by
    cases hc : c0 with
    | leaf l =>
      rw [hc] at hc0rep
      simp [NodeRep] at hc0rep
    | internal cs0 => exact ⟨cs0, rfl⟩
  rw [hc0eq] at hc0rep
  obtain ⟨hw32, hcs032, hwcs0, hstrict0, hlook0, _⟩ := hc0rep
  have hwlen : ((((trieLeaves (List.replicate 2080 (0 : Nat)) v.tailOffset)).drop
      (0 * 32 ^ (0 + 1))).take (32 ^ (0 + 1))).length = 32 := by
    simp only [List.length_take, List.length_drop, hlslen]
    norm_num
  have hcs0len : cs0.length = 32 := by
    rw [hstrict0 (by trivial), hwlen]
  -- Set(0, 1): doAssoc pads the root's child array to 32 slots
  obtain ⟨w0, hlook00⟩ : ∃ w0, cs0.getD 0 none = some (.leaf w0) :=
    ⟨_, hlook0 0 (by rw [hwlen]; norm_num)⟩
  set nd : CNode Nat := .internal ((goCopy nodeSize cs0 none).set 0
      (some (.leaf ((goCopy nodeSize w0 default).set (0 &&& shiftBitMask) 1)))) with hndval
  have hnd : doAssoc v.shift (some v.root) 0 1 =
      .ok (.internal ((goCopy nodeSize cs none).set 0 (some nd))) := by
    rw [hndval, hshift10, hroot]
    rw [doAssoc_internal 10 cs 0 1 (by norm_num)]
    have hi0 : ((0 : Nat) >>> 10) &&& shiftBitMask = 0 := by decide
    rw [hi0]
    have hgd : (goCopy nodeSize cs none).getD 0 none = some (.internal cs0) := by
      rw [goCopy_getD nodeSize cs none 0 (by decide) none, if_pos (by omega)]
      rw [hc0eq] at hc0
      exact hc0
    rw [hgd]
    have h105 : 10 - shiftSize = 5 := rfl
    rw [h105]
    rw [doAssoc_internal 5 cs0 0 1 (by norm_num)]
    have hi0' : ((0 : Nat) >>> 5) &&& shiftBitMask = 0 := by decide
    rw [hi0']
    have hgd0 : (goCopy nodeSize cs0 none).getD 0 none = some (.leaf w0) := by
      rw [goCopy_getD nodeSize cs0 none 0 (by decide) none, if_pos (by omega)]
      exact hlook00
    rw [hgd0]
    have h50 : 5 - shiftSize = 0 := rfl
    rw [h50, doAssoc_leaf_zero]
    rfl
  have hset : PVec.set v (0 : Int) 1 =
      .ok { v with root := .internal ((goCopy nodeSize cs none).set 0 (some nd)) } := by
    unfold PVec.set
    rw [if_neg (by rw [hlen']; decide)]
    rw [if_neg (by rw [htoff]; decide)]
    have ht0 : ((0 : Int)).toNat = 0 := rfl
    rw [ht0, hnd]
    rfl
  set cs' : List (Option (CNode Nat)) := (goCopy nodeSize cs none).set 0 (some nd) with hcs'
  set v2 : PVec Nat := { v with root := .internal cs' } with hv2
  have hcs'len : cs'.length = 32 := by
    rw [hcs']
    simp
  have hgd2 : cs'.getD 2 none = none := by
    rw [hcs', getD_set_ne _ 0 2 _ none (by omega)]
    rw [goCopy_getD nodeSize cs none 2 (by decide) none, if_neg (by omega)]
  -- the Append flush descends into the nil slot 2 and fails
  have hpt : pushTail v2.len v2.shift (some v2.root) v2.tail =
      .error interfaceConversionMsg := by
    show pushTail v.len v.shift (some (.internal cs')) v.tail = _
    rw [hlen', hshift10]
    have hidx : ((2080 - 1) >>> 10) &&& shiftBitMask = 2 := by decide
    rw [pushTail_internal_child 2080 10 cs' v.tail (by norm_num)
      (by rw [hidx, hcs'len]; norm_num)]
    rw [hidx, hgd2]
    have h105 : (10 : Nat) - shiftSize = 5 := rfl
    rw [h105, pushTail_none]
    rfl
  have hpln : pushLeafNode v2 v2.tail = .error interfaceConversionMsg := by
    unfold pushLeafNode
    rw [if_neg ?hng, hpt]
    · rfl
    case hng =>
      show ¬((1 : Nat) <<< v.shift < v.len >>> shiftSize)
      rw [hshift10, hlen']
      decide
  have happ : PVec.append v2 [0] = .error interfaceConversionMsg := by
    show appendLoop v2 [0] = _
    rw [appendLoop_cons_flush v2 0 [] (uintMin 1 nodeSize) ?hfree rfl]
    · rw [hpln]
    case hfree =>
      show nodeSize - (v.len - v2.tailOffset) = 0
      have htoff2 : v2.tailOffset = v.tailOffset := rfl
      rw [htoff2, hlen', htoff]
      decide
  exact ⟨v, v2, hv, hset, happ⟩

/-! ## `hash.go`: the hash stub, and claim C9 -/

/-- Go `nilinterhash` from `hash.go`: ignores its arguments and returns 0. -/
def nilinterhash (p : Unit) (h : Nat) : Nat := 0

/-- Go `genericHash`: `uint32(nilinterhash(unsafe.Pointer(&x), 0))`. -/
def genericHash {K : Type} (x : K) : Nat := nilinterhash () 0 % 2 ^ 32

/-- C9 (amended): `genericHash` is the constant stub — it returns 0 for
every key of every key type, so equal keys trivially hash equally, and
no two keys hash differently. -/
theorem claim_C9_hash_constant {K : Type} (x y : K) :
    genericHash x = 0 ∧ genericHash x = genericHash y :=
  ⟨rfl, rfl⟩

/-- C9 counterexample: at the key types the tests use, `genericHash` is
the constant-zero function, so there is no pair of keys with different
hash values, contradicting the claim that the hash is a genuine per-key
hash. -/
theorem claim_C9_counterexample :
    (fun x : Nat => genericHash x) = (fun _ : Nat => 0) ∧
    (fun s : String => genericHash s) = (fun _ : String => 0) :=
  ⟨rfl, rfl⟩

/-! ## `Range`: the visitor loop as an early-exit fold -/

/-- An early-exit left fold: the abstract behaviour of the Go `Range`
loops.  The Bool records whether the whole list was visited (`true`) or
the visitor stopped the fold (`false`). -/
def earlyFold {S T : Type} (f : S → T → S × Bool) : S → List T → S × Bool
  | st, [] => (st, true)
  | st, x :: xs =>
    let r := f st x
    if r.2 then earlyFold f r.1 xs else (r.1, false)

@[simp] theorem earlyFold_nil {S T : Type} (f : S → T → S × Bool) (st : S) :
    earlyFold f st [] = (st, true) := rfl

theorem earlyFold_cons {S T : Type} (f : S → T → S × Bool) (st : S) (x : T) (xs : List T) :
    earlyFold f st (x :: xs) =
      if (f st x).2 then earlyFold f (f st x).1 xs else ((f st x).1, false) := rfl

/-- `sliceFor` at a 32-aligned index returns the chunk holding the next
up-to-32 elements of the abstract list. -/
theorem sliceFor_chunk {T : Type} {s : Bool} {v : PVec T} {es : List T}
    (hrep : VRep s v es) (d : T) (i : Nat) (hi : i < es.length) (hmod : i % 32 = 0) :
    ∃ chunk, sliceFor v i = .ok chunk ∧
      ∀ j, i ≤ j → j < es.length → j < i + 32 →
        chunk.get? (j &&& shiftBitMask) = some (es.getD j d) := by
  obtain ⟨hlen, htail, h, hshift, hh1, hroot, hcap, _⟩ := hrep
  have htoffmod : v.tailOffset % 32 = 0 := tailOffset_mod v
  have htoffle : v.tailOffset ≤ v.len := tailOffset_le v
  have hlenle : v.len - v.tailOffset ≤ 32 := len_sub_tailOffset_le v
  by_cases hcase : v.tailOffset ≤ i
  · refine ⟨es.drop v.tailOffset, ?_, ?_⟩
    · unfold sliceFor
      rw [if_pos hcase, htail]
    · intro j hij hjlen hjblk
      rw [and_mask_eq_mod]
      have hj32 : j % 32 = j - v.tailOffset := by omega
      rw [hj32]
      rw [get?_eq_some_getD _ _ d (by simp only [List.length_drop]; omega)]
      rw [getD_drop]
      have harr : v.tailOffset + (j - v.tailOffset) = j := by omega
      rw [harr]
  · push_neg at hcase
    have hlt : i / 32 < v.tailOffset / 32 := by omega
    have hmodid : (i / 32) % 32 ^ h = i / 32 := Nat.mod_eq_of_lt (lt_of_lt_of_le hlt hcap)
    refine ⟨(es.drop (32 * (i / 32))).take 32, ?_, ?_⟩
    · unfold sliceFor
      rw [if_neg (by omega), hshift]
      rw [sliceForNode_rep h v.root (trieLeaves es v.tailOffset) i hroot
        (by rw [hmodid]; simpa using hlt)]
      rw [hmodid, trieLeaves_getD _ _ _ hlt]
    · intro j hij hjlen hjblk
      rw [and_mask_eq_mod]
      have hj32 : j % 32 = j - i := by omega
      rw [hj32]
      have hjlt : j - i < 32 := by omega
      rw [get?_eq_some_getD _ _ d
        (by simp only [List.length_take, List.length_drop]; omega)]
      rw [getD_drop_take _ _ _ _ _ hjlt]
      have hsum : 32 * (i / 32) + (j - i) = j := by omega
      rw [hsum]

/-- The `Range` loop computes the early-exit fold of the remaining
elements, as long as the chunk cached for a partially visited block
holds that block's elements. -/
theorem rangeLoop_fold {T S : Type} {s : Bool} {v : PVec T} {es : List T}
    (hrep : VRep s v es) (d : T) (f : S → T → S × Bool) (n : Nat) :
    ∀ (i : Nat) (chunk : List T) (st : S),
      es.length - i ≤ n →
      (i &&& shiftBitMask ≠ 0 →
        ∀ j, i ≤ j → j < es.length → j < (i / 32) * 32 + 32 →
          chunk.get? (j &&& shiftBitMask) = some (es.getD j d)) →
      rangeLoop v f i chunk st = .ok (earlyFold f st (es.drop i)).1 := by
  have hlen : v.len = es.length := hrep.1
  induction n with
  | zero =>
    intro i chunk st hn _
    rw [rangeLoop.eq_def]
    rw [if_neg (by omega)]
    rw [List.drop_eq_nil_of_le (by omega)]
    rfl
  | succ n ih =>
    intro i chunk st hn hinv
    by_cases hil : i < es.length
    · have hdrop : es.drop i = es.getD i d :: es.drop (i + 1) := by
        rw [List.drop_eq_getElem_cons hil]
        congr 1
        rw [List.getD_eq_getElem?_getD, List.getElem?_eq_getElem hil]
        rfl
      by_cases hb : i &&& shiftBitMask = 0
      · have hmod : i % 32 = 0 := by
          rw [and_mask_eq_mod] at hb
          exact hb
        obtain ⟨chunk', hsf, hprop⟩ := sliceFor_chunk hrep d i hil hmod
        rw [rangeLoop.eq_def]
        rw [if_pos (by omega), if_pos hb, hsf]
        have hget : chunk'.get? (i &&& shiftBitMask) = some (es.getD i d) :=
          hprop i (le_refl i) hil (by omega)
        show (match chunk'.get? (i &&& shiftBitMask) with
              | none => Except.error indexOutOfRangeMsg
              | some x =>
                let r := f st x
                if r.2 then rangeLoop v f (i + 1) chunk' r.1 else Except.ok r.1) = _
        rw [hget, hdrop, earlyFold_cons]
        show (if (f st (es.getD i d)).2 then rangeLoop v f (i + 1) chunk' (f st (es.getD i d)).1
              else .ok (f st (es.getD i d)).1) = _
        by_cases hr : (f st (es.getD i d)).2
        · rw [if_pos hr, if_pos hr]
          refine ih (i + 1) chunk' (f st (es.getD i d)).1 (by omega) ?_
          intro _ j hj1 hj2 hj3
          have hq : (i + 1) / 32 = i / 32 := by omega
          rw [hq] at hj3
          exact hprop j (by omega) hj2 (by omega)
        · rw [if_neg hr, if_neg hr]
      · rw [rangeLoop.eq_def]
        rw [if_pos (by omega), if_neg hb]
        have hget : chunk.get? (i &&& shiftBitMask) = some (es.getD i d) :=
          hinv hb i (le_refl i) hil (by omega)
        show (match chunk.get? (i &&& shiftBitMask) with
              | none => Except.error indexOutOfRangeMsg
              | some x =>
                let r := f st x
                if r.2 then rangeLoop v f (i + 1) chunk r.1 else Except.ok r.1) = _
        rw [hget, hdrop, earlyFold_cons]
        show (if (f st (es.getD i d)).2 then rangeLoop v f (i + 1) chunk (f st (es.getD i d)).1
              else .ok (f st (es.getD i d)).1) = _
        by_cases hr : (f st (es.getD i d)).2
        · rw [if_pos hr, if_pos hr]
          refine ih (i + 1) chunk (f st (es.getD i d)).1 (by omega) ?_
          intro hb1 j hj1 hj2 hj3
          have hmodne : i % 32 ≠ 0 := by
            rw [and_mask_eq_mod] at hb
            exact hb
          have hmodne1 : (i + 1) % 32 ≠ 0 := by
            rw [and_mask_eq_mod] at hb1
            exact hb1
          have hq : (i + 1) / 32 = i / 32 := by omega
          rw [hq] at hj3
          exact hinv hb j (by omega) hj2 (by omega)
        · rw [if_neg hr, if_neg hr]
    · rw [rangeLoop.eq_def]
      rw [if_neg (by omega)]
      rw [List.drop_eq_nil_of_le (by omega)]
      rfl

/-- Go `Vector.Range` computes the early-exit fold of the element list. -/
theorem range_fold {T S : Type} [Inhabited T] {s : Bool} {v : PVec T} {es : List T}
    (hrep : VRep s v es) (f : S → T → S × Bool) (st : S) :
    PVec.range v f st = .ok (earlyFold f st es).1 := by
  unfold PVec.range
  have h := rangeLoop_fold hrep default f es.length 0 [] st (by omega)
    (by intro hb; simp at hb)
  simpa using h

/-- Counting visitor: each call bumps the counter, and the visitor asks
to stop on its `k`-th call. -/
theorem earlyFold_count {T : Type} (k : Nat) :
    ∀ (l : List T) (c : Nat), c < k →
      (earlyFold (fun c _ => (c + 1, decide (c + 1 ≠ k))) c l).1 = min k (c + l.length) := by
  intro l
  induction l with
  | nil =>
    intro c hc
    simp only [earlyFold_nil, List.length_nil]
    omega
  | cons x xs ih =>
    intro c hc
    rw [earlyFold_cons]
    by_cases hk : c + 1 = k
    · rw [if_neg (by simp [hk])]
      simp only [List.length_cons]
      omega
    · rw [if_pos (by simp [hk])]
      show (earlyFold _ (c + 1) xs).1 = _
      rw [ih (c + 1) (by omega)]
      simp only [List.length_cons]
      omega

/-- Collecting visitor: never stops, appends every element in order. -/
theorem earlyFold_collect {T : Type} :
    ∀ (l acc : List T),
      earlyFold (fun acc x => (acc ++ [x], true)) acc l = (acc ++ l, true) := by
  intro l
  induction l with
  | nil => intro acc; simp
  | cons x xs ih =>
    intro acc
    rw [earlyFold_cons]
    simp only [if_pos]
    rw [ih]
    simp

/-! ## The persistent map (`map_test.go`, implementation part) -/

/-- Go `MapItem[K, V]`. -/
structure MapItem (K V : Type) where
  Key : K
  Value : V

/-- A Go `privateItemBucket` slice value; `none` models the nil slice. -/
abbrev Bucket (K V : Type) := Option (List (MapItem K V))

/-- The key-scan loop shared by `Load`, `Store` and `AddItem`: the value
of the first item with the given key. -/
def lookupScan {K V : Type} [DecidableEq K] : List (MapItem K V) → K → Option V
  | [], _ => none
  | it :: its, k => if it.Key = k then some it.Value else lookupScan its k

/-- The abstract effect of storing a key: replace the first item with
that key, or append a new item. -/
def storeKey {K V : Type} [DecidableEq K] :
    List (MapItem K V) → K → V → List (MapItem K V)
  | [], k, x => [⟨k, x⟩]
  | it :: its, k, x => if it.Key = k then ⟨k, x⟩ :: its else it :: storeKey its k x

/-- The `Delete` loop: keep the items whose key differs. -/
def removeKey {K V : Type} [DecidableEq K] :
    List (MapItem K V) → K → List (MapItem K V)
  | [], _ => []
  | it :: its, k => if it.Key ≠ k then it :: removeKey its k else removeKey its k

/-- The overwrite loop of `AddItem` / `Store`: `some` of the bucket with
the first matching item replaced, or `none` when the key is absent. -/
def updateBucket {K V : Type} [DecidableEq K] :
    List (MapItem K V) → MapItem K V → Option (List (MapItem K V))
  | [], _ => none
  | x :: xs, it =>
    if x.Key = it.Key then some (it :: xs)
    else (updateBucket xs it).map (fun ys => x :: ys)

theorem updateBucket_eq {K V : Type} [DecidableEq K] :
    ∀ (l : List (MapItem K V)) (k : K) (x : V),
      updateBucket l ⟨k, x⟩ =
        match lookupScan l k with
        | none => none
        | some _ => some (storeKey l k x) := by
  intro l k x
  induction l with
  | nil => rfl
  | cons it its ih =>
    show (if it.Key = k then _ else _) = _
    by_cases hk : it.Key = k
    · simp only [updateBucket, lookupScan, storeKey, if_pos hk]
    · simp only [updateBucket, lookupScan, storeKey, if_neg hk, ih]
      cases lookupScan its k <;> rfl

theorem storeKey_absent {K V : Type} [DecidableEq K] :
    ∀ (l : List (MapItem K V)) (k : K) (x : V), lookupScan l k = none →
      storeKey l k x = l ++ [⟨k, x⟩] := by
  intro l k x h
  induction l with
  | nil => rfl
  | cons it its ih =>
    simp only [lookupScan] at h
    by_cases hk : it.Key = k
    · rw [if_pos hk] at h
      exact absurd h (by simp)
    · rw [if_neg hk] at h
      simp only [storeKey, if_neg hk, ih h, List.cons_append]

theorem storeKey_length_present {K V : Type} [DecidableEq K] :
    ∀ (l : List (MapItem K V)) (k : K) (x : V) (w : V), lookupScan l k = some w →
      (storeKey l k x).length = l.length := by
  intro l k x
  induction l with
  | nil => intro w h; exact absurd h (by simp [lookupScan])
  | cons it its ih =>
    intro w h
    simp only [lookupScan] at h
    by_cases hk : it.Key = k
    · simp only [storeKey, if_pos hk, List.length_cons]
    · rw [if_neg hk] at h
      simp only [storeKey, if_neg hk, List.length_cons, ih w h]

theorem lookupScan_append_none {K V : Type} [DecidableEq K] :
    ∀ (a b : List (MapItem K V)) (k : K), lookupScan a k = none →
      lookupScan (a ++ b) k = lookupScan b k := by
  intro a b k h
  induction a with
  | nil => rfl
  | cons it its ih =>
    simp only [lookupScan] at h ⊢
    by_cases hk : it.Key = k
    · rw [if_pos hk] at h
      exact absurd h (by simp)
    · rw [if_neg hk] at h
      rw [if_neg hk]
      exact ih h

theorem removeKey_absent {K V : Type} [DecidableEq K] :
    ∀ (l : List (MapItem K V)) (k : K), lookupScan l k = none →
      removeKey l k = l := by
  intro l k h
  induction l with
  | nil => rfl
  | cons it its ih =>
    simp only [lookupScan] at h
    by_cases hk : it.Key = k
    · rw [if_pos hk] at h
      exact absurd h (by simp)
    · rw [if_neg hk] at h
      simp only [removeKey, if_pos hk, ih h]

theorem removeKey_length_le {K V : Type} [DecidableEq K] :
    ∀ (l : List (MapItem K V)) (k : K), (removeKey l k).length ≤ l.length := by
  intro l k
  induction l with
  | nil => simp [removeKey]
  | cons it its ih =>
    simp only [removeKey]
    by_cases hk : it.Key ≠ k
    · rw [if_pos hk]
      simp only [List.length_cons]
      omega
    · rw [if_neg hk]
      simp only [List.length_cons]
      omega

theorem removeKey_length_present {K V : Type} [DecidableEq K] :
    ∀ (l : List (MapItem K V)) (k : K) (w : V), lookupScan l k = some w →
      (removeKey l k).length < l.length := by
  intro l k
  induction l with
  | nil => intro w h; exact absurd h (by simp [lookupScan])
  | cons it its ih =>
    intro w h
    simp only [lookupScan] at h
    simp only [removeKey]
    by_cases hk : it.Key = k
    · rw [if_neg (by simpa using hk)]
      have := removeKey_length_le its k
      simp only [List.length_cons]
      omega
    · rw [if_pos hk] at *
      rw [if_neg hk] at h
      simp only [List.length_cons]
      have := ih w h
      omega

/-- No two items of the bucket share a key. -/
def DistinctKeys {K V : Type} (l : List (MapItem K V)) : Prop :=
  List.Pairwise (fun a b => a.Key ≠ b.Key) l

theorem lookupScan_eq_none_iff {K V : Type} [DecidableEq K] :
    ∀ (l : List (MapItem K V)) (k : K),
      lookupScan l k = none ↔ ∀ it ∈ l, it.Key ≠ k := by
  intro l k
  induction l with
  | nil => simp [lookupScan]
  | cons it its ih =>
    simp only [lookupScan, List.mem_cons]
    by_cases hk : it.Key = k
    · rw [if_pos hk]
      simp [hk]
    · rw [if_neg hk]
      rw [ih]
      constructor
      · rintro h a (rfl | ha)
        · exact hk
        · exact h a ha
      · intro h a ha
        exact h a (Or.inr ha)

theorem storeKey_mem {K V : Type} [DecidableEq K] :
    ∀ (l : List (MapItem K V)) (k : K) (x : V) (b : MapItem K V),
      b ∈ storeKey l k x → b ∈ l ∨ b = ⟨k, x⟩ := by
  intro l k x
  induction l with
  | nil =>
    intro b hb
    simp only [storeKey, List.mem_singleton] at hb
    exact Or.inr hb
  | cons it its ih =>
    intro b hb
    simp only [storeKey] at hb
    by_cases hk : it.Key = k
    · rw [if_pos hk] at hb
      rcases List.mem_cons.mp hb with rfl | hb
      · exact Or.inr rfl
      · exact Or.inl (List.mem_cons_of_mem _ hb)
    · rw [if_neg hk] at hb
      rcases List.mem_cons.mp hb with rfl | hb
      · exact Or.inl (List.mem_cons_self _ _)
      · rcases ih b hb with h | h
        · exact Or.inl (List.mem_cons_of_mem _ h)
        · exact Or.inr h

theorem storeKey_distinct {K V : Type} [DecidableEq K] :
    ∀ (l : List (MapItem K V)) (k : K) (x : V),
      DistinctKeys l → DistinctKeys (storeKey l k x) := by
  intro l k x
  induction l with
  | nil =>
    intro _
    exact List.pairwise_singleton _ _
  | cons it its ih =>
    intro hd
    obtain ⟨hhead, htail⟩ := List.pairwise_cons.mp hd
    show DistinctKeys (if it.Key = k then (⟨k, x⟩ : MapItem K V) :: its
      else it :: storeKey its k x)
    by_cases hk : it.Key = k
    · rw [if_pos hk]
      refine List.pairwise_cons.mpr ⟨?_, htail⟩
      intro b hb
      show k ≠ b.Key
      rw [← hk]
      exact hhead b hb
    · rw [if_neg hk]
      refine List.pairwise_cons.mpr ⟨?_, ih htail⟩
      intro b hb
      rcases storeKey_mem its k x b hb with h | h
      · exact hhead b h
      · rw [h]
        exact hk

theorem removeKey_sublist {K V : Type} [DecidableEq K] :
    ∀ (l : List (MapItem K V)) (k : K), (removeKey l k).Sublist l := by
  intro l k
  induction l with
  | nil => simp [removeKey]
  | cons it its ih =>
    show (if it.Key ≠ k then it :: removeKey its k else removeKey its k).Sublist (it :: its)
    by_cases hk : it.Key ≠ k
    · rw [if_pos hk]
      exact List.Sublist.cons₂ it ih
    · rw [if_neg hk]
      exact List.Sublist.cons it ih

theorem removeKey_distinct {K V : Type} [DecidableEq K]
    (l : List (MapItem K V)) (k : K) (hd : DistinctKeys l) :
    DistinctKeys (removeKey l k) :=
  List.Pairwise.sublist (removeKey_sublist l k) hd

/-- The abstract effect of `AddItemsFromMap`: store each item in turn. -/
def storeAll {K V : Type} [DecidableEq K] :
    List (MapItem K V) → List (MapItem K V) → List (MapItem K V)
  | acc, [] => acc
  | acc, it :: its => storeAll (storeKey acc it.Key it.Value) its

theorem storeAll_distinct {K V : Type} [DecidableEq K] :
    ∀ (items acc : List (MapItem K V)),
      DistinctKeys acc → DistinctKeys (storeAll acc items) := by
  intro items
  induction items with
  | nil => intro acc h; exact h
  | cons it its ih =>
    intro acc h
    exact ih _ (storeKey_distinct acc it.Key it.Value h)

/-- Re-adding a distinct-key item list into a bucket none of whose keys
it contains just appends it: rebuilding a map reproduces its items. -/
theorem storeAll_append_absent {K V : Type} [DecidableEq K] :
    ∀ (items acc : List (MapItem K V)),
      (∀ it ∈ items, lookupScan acc it.Key = none) → DistinctKeys items →
      storeAll acc items = acc ++ items := by
  intro items
  induction items with
  | nil => intro acc _ _; simp [storeAll]
  | cons it its ih =>
    intro acc habs hd
    obtain ⟨hhead, htail⟩ := List.pairwise_cons.mp hd
    show storeAll (storeKey acc it.Key it.Value) its = _
    have hsk : storeKey acc it.Key it.Value = acc ++ [it] := by
      rw [storeKey_absent acc it.Key it.Value (habs it (List.mem_cons_self _ _))]
    rw [hsk, ih (acc ++ [it]) ?_ htail, List.append_assoc]
    · rfl
    · intro it2 hit2
      rw [lookupScan_append_none acc [it] it2.Key (habs it2 (List.mem_cons_of_mem _ hit2))]
      show (if it.Key = it2.Key then some it.Value else lookupScan [] it2.Key) = none
      rw [if_neg (hhead it2 hit2), lookupScan]

/-- Go `privateItemBuckets` (the mutable builder used during map
creation and reallocation); its `length` field is a Go `int`. -/
structure ItemBuckets (K V : Type) where
  buckets : List (Bucket K V)
  length : Int

/-- Go `newPrivateItemBuckets`: `size := int(float64(itemCount) /
initialMapLoadFactor) + 1` with `initialMapLoadFactor = 5.0`; for the
non-negative counts the code passes, the float division truncates to
the integer quotient. -/
def newPrivateItemBuckets {K V : Type} (itemCount : Int) : ItemBuckets K V :=
  { buckets := List.replicate (itemCount / 5 + 1).toNat none, length := 0 }

/-- Go `privateItemBuckets.AddItem`; the modulo panics when the bucket
slice is empty. -/
def AddItem {K V : Type} [DecidableEq K] (b : ItemBuckets K V) (item : MapItem K V) :
    Except String (ItemBuckets K V) :=
  if b.buckets.length = 0 then .error "integer divide by zero"
  else
    let ix := genericHash item.Key % b.buckets.length
    match b.buckets.getD ix none with
    | some bucket =>
      match updateBucket bucket item with
      | some newb => .ok { b with buckets := b.buckets.set ix (some newb) }
      | none => .ok { buckets := b.buckets.set ix (some (bucket ++ [item])),
                      length := b.length + 1 }
    | none => .ok { buckets := b.buckets.set ix (some [item]), length := b.length + 1 }

/-- The loop of Go `AddItemsFromMap` and `newMap`: add the items one by
one, threading the builder. -/
def addItemsList {K V : Type} [DecidableEq K] :
    ItemBuckets K V → List (MapItem K V) → Except String (ItemBuckets K V)
  | b, [] => .ok b
  | b, it :: its =>
    match AddItem b it with
    | .error e => .error e
    | .ok b2 => addItemsList b2 its

/-- With the constant hash, every item lands in bucket 0. -/
theorem AddItem_pos {K V : Type} [DecidableEq K] (b : ItemBuckets K V)
    (item : MapItem K V) (hn : ¬(b.buckets.length = 0)) :
    AddItem b item =
      match b.buckets.getD 0 none with
      | some bucket =>
        match updateBucket bucket item with
        | some newb => .ok { b with buckets := b.buckets.set 0 (some newb) }
        | none => .ok { buckets := b.buckets.set 0 (some (bucket ++ [item])),
                        length := b.length + 1 }
      | none => .ok { buckets := b.buckets.set 0 (some [item]), length := b.length + 1 } := by
  unfold AddItem
  rw [if_neg hn]
  have h0 : genericHash item.Key % b.buckets.length = 0 := by
    simp [genericHash, nilinterhash]
  rw [h0]

theorem replicate_set_same {A : Type} (n : Nat) (a : A) :
    (List.replicate n a).set 0 a = List.replicate n a := by
  cases n with
  | zero => rfl
  | succ m => rw [List.replicate_succ]; rfl

/-- The builder invariant: all items in bucket 0, the other buckets
nil, the length field counting the items. -/
def BRep {K V : Type} (b : ItemBuckets K V) (l : List (MapItem K V)) (n : Nat) : Prop :=
  b.buckets = (List.replicate n (none : Bucket K V)).set 0
    (if l.isEmpty then none else some l) ∧
  1 ≤ n ∧ b.length = (l.length : Int) ∧ DistinctKeys l

theorem newPrivateItemBuckets_brep {K V : Type} (c : Int) (hc : 0 ≤ c) :
    BRep (newPrivateItemBuckets (K := K) (V := V) c) [] ((c / 5 + 1).toNat) := by
  refine ⟨?_, by omega, rfl, List.Pairwise.nil⟩
  show List.replicate _ none = (List.replicate _ none).set 0
    (if (List.isEmpty ([] : List (MapItem K V))) then none else some [])
  simp [replicate_set_same]

theorem AddItem_brep {K V : Type} [DecidableEq K] {b : ItemBuckets K V}
    {l : List (MapItem K V)} {n : Nat} (hb : BRep b l n) (k : K) (x : V) :
    ∃ b', AddItem b ⟨k, x⟩ = .ok b' ∧ BRep b' (storeKey l k x) n := by
  obtain ⟨hbuck, hn, hlen, hdist⟩ := hb
  have hblen : b.buckets.length = n := by
    rw [hbuck]
    simp
  have hget0 : b.buckets.getD 0 none = (if l.isEmpty then none else some l) := by
    rw [hbuck, getD_set_self _ _ _ _ (by simp only [List.length_replicate]; omega)]
  have hsetset : ∀ (sl : Bucket K V), b.buckets.set 0 sl =
      (List.replicate n (none : Bucket K V)).set 0 sl := by
    intro sl
    rw [hbuck, List.set_set]
  rw [AddItem_pos b ⟨k, x⟩ (by omega)]
  by_cases hl : l.isEmpty
  · have hlnil : l = [] := List.isEmpty_iff.mp hl
    rw [hget0, if_pos hl]
    subst hlnil
    refine ⟨_, rfl, ?_, by omega, ?_, ?_⟩
    · show b.buckets.set 0 (some [⟨k, x⟩]) = _
      rw [hsetset]
      rfl
    · show b.length + 1 = _
      rw [hlen]
      simp [storeKey]
    · exact storeKey_distinct [] k x hdist
  · have hlne : ¬(l = []) := by
      intro h
      rw [h] at hl
      exact hl rfl
    rw [hget0, if_neg hl]
    show ∃ b', (match updateBucket l ⟨k, x⟩ with
          | some newb => Except.ok { b with buckets := b.buckets.set 0 (some newb) }
          | none => Except.ok { buckets := b.buckets.set 0 (some (l ++ [⟨k, x⟩])),
                                length := b.length + 1 }) = Except.ok b' ∧
        BRep b' (storeKey l k x) n
    rw [updateBucket_eq l k x]
    cases hscan : lookupScan l k with
    | none =>
      refine ⟨_, rfl, ?_, by omega, ?_, ?_⟩
      · show b.buckets.set 0 (some (l ++ [⟨k, x⟩])) = _
        rw [hsetset]
        rw [storeKey_absent l k x hscan]
        rw [if_neg (by simp)]
      · show b.length + 1 = _
        rw [hlen, storeKey_absent l k x hscan]
        simp
      · exact storeKey_distinct l k x hdist
    | some w =>
      refine ⟨_, rfl, ?_, by omega, ?_, ?_⟩
      · show b.buckets.set 0 (some (storeKey l k x)) = _
        rw [hsetset]
        rw [if_neg ?_]
        have hlen2 := storeKey_length_present l k x w hscan
        intro hemp
        rw [List.isEmpty_iff] at hemp
        rw [hemp] at hlen2
        simp at hlen2
        exact hlne (List.eq_nil_of_length_eq_zero hlen2.symm)
      · show b.length = _
        rw [hlen, storeKey_length_present l k x w hscan]
      · exact storeKey_distinct l k x hdist

theorem addItemsList_brep {K V : Type} [DecidableEq K] :
    ∀ (items : List (MapItem K V)) (b : ItemBuckets K V) (l : List (MapItem K V)) (n : Nat),
      BRep b l n →
      ∃ b', addItemsList b items = .ok b' ∧ BRep b' (storeAll l items) n := by
  intro items
  induction items with
  | nil =>
    intro b l n hb
    exact ⟨b, rfl, hb⟩
  | cons it its ih =>
    intro b l n hb
    obtain ⟨b2, hb2, hrep2⟩ := AddItem_brep hb it.Key it.Value
    obtain ⟨b', hb', hrep'⟩ := ih b2 _ n hrep2
    refine ⟨b', ?_, hrep'⟩
    show (match AddItem b it with
          | Except.error e => Except.error e
          | Except.ok b2 => addItemsList b2 its) = Except.ok b'
    rw [show AddItem b it = AddItem b ⟨it.Key, it.Value⟩ from rfl, hb2]
    exact hb'

/-- Go `Map[K, V]`: a backing vector of buckets and an `int` length. -/
structure PMap (K V : Type) where
  backingVector : PVec (Bucket K V)
  len : Int

namespace PMap

/-- Go `newMap` (also the body of `NewMap`; `NewMapFromNativeMap` is the
same construction fed from a native map's key/value pairs). -/
def newMap {K V : Type} [DecidableEq K] (items : List (MapItem K V)) :
    Except String (PMap K V) :=
  match addItemsList (newPrivateItemBuckets (items.length : Int)) items with
  | .error e => .error e
  | .ok b =>
    match newVector b.buckets with
    | .error e => .error e
    | .ok bv => .ok { backingVector := bv, len := b.length }

/-- Go `Map.Len`. -/
def lenOp {K V : Type} (m : PMap K V) : Int := m.len

/-- Go `Map.pos`: `int(uint64(genericHash(key)) % uint64(m.backingVector.Len()))`;
the modulo panics when the backing vector is empty. -/
def pos {K V : Type} [DecidableEq K] (m : PMap K V) (key : K) : Except String Nat :=
  if m.backingVector.len = 0 then .error "integer divide by zero"
  else .ok (genericHash key % m.backingVector.len)

/-- Go `Map.Load`. -/
def load {K V : Type} [DecidableEq K] [Inhabited V] (m : PMap K V) (key : K) :
    Except String (V × Bool) :=
  match m.pos key with
  | .error e => .error e
  | .ok p =>
    match PVec.get m.backingVector (p : Int) with
    | .error e => .error e
    | .ok none => .ok (default, false)
    | .ok (some bucket) =>
      match lookupScan bucket key with
      | some v => .ok (v, true)
      | none => .ok (default, false)

/-- Go `AddItemsFromMap`: `Range` over the backing vector, adding every
item of every bucket to the builder (a panic inside the visitor stops
the range and is surfaced as the error state). -/
def builderVisitor {K V : Type} [DecidableEq K]
    (st : Except String (ItemBuckets K V)) (bucket : Bucket K V) :
    Except String (ItemBuckets K V) × Bool :=
  match st with
  | .error e => (.error e, false)
  | .ok bb =>
    match bucket with
    | none => (.ok bb, true)
    | some items =>
      match addItemsList bb items with
      | .error e => (.error e, false)
      | .ok bb2 => (.ok bb2, true)

def addItemsFromMap {K V : Type} [DecidableEq K] (b : ItemBuckets K V) (m : PMap K V) :
    Except String (ItemBuckets K V) :=
  match PVec.range m.backingVector builderVisitor (.ok b) with
  | .error e => .error e
  | .ok st => st

/-- Go `Map.Store`. -/
def store {K V : Type} [DecidableEq K] (m : PMap K V) (key : K) (value : V) :
    Except String (PMap K V) :=
  if m.len ≥ (m.backingVector.len : Int) * 8 then
    match addItemsFromMap (newPrivateItemBuckets (m.len + 1)) m with
    | .error e => .error e
    | .ok b1 =>
      match AddItem b1 ⟨key, value⟩ with
      | .error e => .error e
      | .ok b2 =>
        match newVector b2.buckets with
        | .error e => .error e
        | .ok bv => .ok { backingVector := bv, len := b2.length }
  else
    match m.pos key with
    | .error e => .error e
    | .ok p =>
      match PVec.get m.backingVector (p : Int) with
      | .error e => .error e
      | .ok none =>
        (PVec.set m.backingVector (p : Int) (some [⟨key, value⟩])).map
          (fun bv => { backingVector := bv, len := m.len + 1 })
      | .ok (some bucket) =>
        match updateBucket bucket ⟨key, value⟩ with
        | some newb =>
          (PVec.set m.backingVector (p : Int) (some newb)).map
            (fun bv => { backingVector := bv, len := m.len })
        | none =>
          (PVec.set m.backingVector (p : Int) (some (bucket ++ [⟨key, value⟩]))).map
            (fun bv => { backingVector := bv, len := m.len + 1 })

/-- Go `Map.Delete`. -/
def delete {K V : Type} [DecidableEq K] (m : PMap K V) (key : K) :
    Except String (PMap K V) :=
  match m.pos key with
  | .error e => .error e
  | .ok p =>
    match PVec.get m.backingVector (p : Int) with
    | .error e => .error e
    | .ok none => .ok m
    | .ok (some bucket) =>
      let newBucket := removeKey bucket key
      let removedItemCount := (bucket.length : Int) - (newBucket.length : Int)
      if removedItemCount = 0 then .ok m
      else
        match PVec.set m.backingVector (p : Int)
            (if newBucket.length = 0 then none else some newBucket) with
        | .error e => .error e
        | .ok bv =>
          let newMp : PMap K V := { backingVector := bv, len := m.len - removedItemCount }
          if 1 < newMp.backingVector.len ∧
              newMp.len < (newMp.backingVector.len : Int) * 2 then
            match addItemsFromMap (newPrivateItemBuckets newMp.len) newMp with
            | .error e => .error e
            | .ok b1 =>
              match newVector b1.buckets with
              | .error e => .error e
              | .ok bv2 => .ok { backingVector := bv2, len := b1.length }
          else .ok newMp

/-- The visitor Go `Map.Range` passes to the backing vector's `Range`:
scan the bucket's items, stopping as soon as `f` asks to. -/
def bucketVisitor {K V S : Type} (f : S → K → V → S × Bool) (s : S)
    (bucket : Bucket K V) : S × Bool :=
  match bucket with
  | none => (s, true)
  | some items => earlyFold (fun s2 it => f s2 it.Key it.Value) s items

/-- Go `Map.Range`. -/
def range {K V S : Type} (m : PMap K V) (f : S → K → V → S × Bool) (st : S) :
    Except String S :=
  PVec.range m.backingVector (bucketVisitor f) st

end PMap

/-- The map invariant: the backing vector is a represented vector whose
bucket 0 holds all items (the hash is constantly 0) and whose other
buckets are nil, and the length field counts the distinct-key items. -/
def MapRep {K V : Type} (m : PMap K V) (l : List (MapItem K V)) : Prop :=
  ∃ (s : Bool) (sz : Nat),
    1 ≤ sz ∧
    VRep s m.backingVector ((List.replicate sz (none : Bucket K V)).set 0
      (if l.isEmpty then none else some l)) ∧
    m.len = (l.length : Int) ∧
    DistinctKeys l

theorem mapRep_pos {K V : Type} [DecidableEq K] {m : PMap K V} {l : List (MapItem K V)}
    (h : MapRep m l) (k : K) :
    1 ≤ m.backingVector.len ∧ PMap.pos m k = .ok 0 := by
  obtain ⟨s, sz, hsz, hvrep, _, _⟩ := h
  have hlen : m.backingVector.len = sz := by
    rw [hvrep.1]
    simp
  refine ⟨by omega, ?_⟩
  unfold PMap.pos
  rw [if_neg (by omega)]
  simp [genericHash, nilinterhash]

theorem mapRep_get0 {K V : Type} {m : PMap K V} {l : List (MapItem K V)}
    (h : MapRep m l) :
    PVec.get m.backingVector ((0 : Nat) : Int) =
      .ok (if l.isEmpty then none else some l) := by
  obtain ⟨s, sz, hsz, hvrep, _, _⟩ := h
  rw [get_rep hvrep 0 (by simp only [List.length_set, List.length_replicate]; omega) none]
  congr 1
  rw [getD_set_self _ _ _ _ (by simp only [List.length_replicate]; omega)]

/-- `Load` under the invariant: a bucket-0 key scan. -/
theorem load_rep {K V : Type} [DecidableEq K] [Inhabited V] {m : PMap K V}
    {l : List (MapItem K V)} (hrep : MapRep m l) (k : K) :
    PMap.load m k = .ok (match lookupScan l k with
                         | some v => (v, true)
                         | none => (default, false)) := by
  obtain ⟨_, hpos⟩ := mapRep_pos hrep k
  have hget := mapRep_get0 hrep
  unfold PMap.load
  rw [hpos]
  show (match PVec.get m.backingVector ((0 : Nat) : Int) with
        | Except.error e => Except.error e
        | Except.ok none => Except.ok (default, false)
        | Except.ok (some bucket) =>
          match lookupScan bucket k with
          | some v => Except.ok (v, true)
          | none => Except.ok (default, false)) = _
  rw [hget]
  by_cases hl : l.isEmpty
  · rw [if_pos hl]
    have hnil : l = [] := List.isEmpty_iff.mp hl
    subst hnil
    rfl
  · rw [if_neg hl]
    show (match lookupScan l k with
          | some v => Except.ok (v, true)
          | none => Except.ok (default, false)) = _
    cases lookupScan l k <;> rfl

theorem replicate_set_cons {A : Type} (n : Nat) (a x : A) (h : 1 ≤ n) :
    (List.replicate n a).set 0 x = x :: List.replicate (n - 1) a := by
  cases n with
  | zero => omega
  | succ m => rw [List.replicate_succ]; rfl

theorem earlyFold_builderVisitor_replicate {K V : Type} [DecidableEq K] :
    ∀ (n : Nat) (bb : ItemBuckets K V),
      earlyFold PMap.builderVisitor (.ok bb) (List.replicate n (none : Bucket K V)) =
        (.ok bb, true) := by
  intro n
  induction n with
  | zero => intro bb; rfl
  | succ m ih =>
    intro bb
    rw [List.replicate_succ, earlyFold_cons]
    show (if (PMap.builderVisitor (.ok bb) none).2 then _ else _) = _
    rw [show PMap.builderVisitor (.ok bb) (none : Bucket K V) = (.ok bb, true) from rfl]
    rw [if_pos rfl]
    exact ih bb

/-- `AddItemsFromMap` under the invariants: adds exactly the map's items
to the builder. -/
theorem addItemsFromMap_rep {K V : Type} [DecidableEq K] {m : PMap K V}
    {l : List (MapItem K V)} (hrep : MapRep m l)
    {b : ItemBuckets K V} {lb : List (MapItem K V)} {n : Nat} (hb : BRep b lb n) :
    ∃ b', PMap.addItemsFromMap b m = .ok b' ∧ BRep b' (storeAll lb l) n := by
  obtain ⟨s, sz, hsz, hvrep, hmlen, hdist⟩ := hrep
  obtain ⟨b2, hb2, hrep2⟩ := addItemsList_brep l b lb n hb
  unfold PMap.addItemsFromMap
  rw [range_fold hvrep PMap.builderVisitor (.ok b)]
  rw [replicate_set_cons sz none _ hsz]
  by_cases hl : l.isEmpty
  · have hnil : l = [] := List.isEmpty_iff.mp hl
    subst hnil
    rw [if_pos (show ([] : List (MapItem K V)).isEmpty = true from rfl), earlyFold_cons]
    rw [show PMap.builderVisitor (.ok b) (none : Bucket K V) = (.ok b, true) from rfl]
    rw [if_pos rfl, earlyFold_builderVisitor_replicate]
    have h' : Except.ok (ε := String) b = Except.ok b2 := hb2
    have hbb : b = b2 := by
      injection h' with h''
    subst hbb
    exact ⟨b, rfl, hrep2⟩
  · rw [if_neg hl, earlyFold_cons]
    have hvis : PMap.builderVisitor (.ok b) (some l) = (.ok b2, true) := by
      show (match addItemsList b l with
            | Except.error e => (Except.error e, false)
            | Except.ok bb2 => (Except.ok bb2, true)) = _
      rw [hb2]
    rw [hvis, if_pos rfl, earlyFold_builderVisitor_replicate]
    exact ⟨b2, rfl, hrep2⟩

/-- `newMap` (hence `NewMap` and `NewMapFromNativeMap`) builds a
represented map holding the items stored in order. -/
theorem newMap_rep {K V : Type} [DecidableEq K] (items : List (MapItem K V)) :
    ∃ m, PMap.newMap items = .ok m ∧ MapRep m (storeAll [] items) := by
  have hb0 := newPrivateItemBuckets_brep (K := K) (V := V) (items.length : Int)
    (by positivity)
  obtain ⟨b, hb, hrepb⟩ := addItemsList_brep items _ [] _ hb0
  obtain ⟨bv, hbv, hvrep⟩ := newVector_rep b.buckets
  obtain ⟨hbuck, hn, hblen, hbdist⟩ := hrepb
  refine ⟨({ backingVector := bv, len := b.length } : PMap K V), ?_, ?_⟩
  · unfold PMap.newMap
    rw [hb]
    show (match newVector b.buckets with
          | Except.error e => Except.error e
          | Except.ok bv =>
            Except.ok ({ backingVector := bv, len := b.length } : PMap K V)) = _
    rw [hbv]
  · exact ⟨true, ((items.length : Int) / 5 + 1).toNat, hn,
      by rw [← hbuck]; exact hvrep, hblen, hbdist⟩

theorem storeKey_isEmpty {K V : Type} [DecidableEq K] (l : List (MapItem K V))
    (k : K) (x : V) : (storeKey l k x).isEmpty = false := by
  cases l with
  | nil => rfl
  | cons it its =>
    show (if it.Key = k then (⟨k, x⟩ : MapItem K V) :: its
          else it :: storeKey its k x).isEmpty = false
    split <;> rfl

theorem lookupScan_none_of_removeKey_length {K V : Type} [DecidableEq K]
    (l : List (MapItem K V)) (k : K) (h : (removeKey l k).length = l.length) :
    lookupScan l k = none := by
  cases hscan : lookupScan l k with
  | none => rfl
  | some w =>
    have := removeKey_length_present l k w hscan
    omega

/-- `Store` under the invariant: the result is a represented map whose
items are the old ones with the key stored. -/
theorem store_rep {K V : Type} [DecidableEq K] {m : PMap K V} {l : List (MapItem K V)}
    (hrep : MapRep m l) (k : K) (x : V) :
    ∃ m', PMap.store m k x = .ok m' ∧ MapRep m' (storeKey l k x) := by
  obtain ⟨s, sz, hsz, hvrep, hmlen, hdist⟩ := hrep
  have hrepm : MapRep m l := ⟨s, sz, hsz, hvrep, hmlen, hdist⟩
  have hbslen : ((List.replicate sz (none : Bucket K V)).set 0
      (if l.isEmpty then none else some l)).length = sz := by
    simp
  by_cases hgrow : m.len ≥ (m.backingVector.len : Int) * 8
  · -- rebuild at a larger size
    have hb0 := newPrivateItemBuckets_brep (K := K) (V := V) (m.len + 1)
      (by rw [hmlen]; positivity)
    obtain ⟨b1, hb1, hrepb1⟩ := addItemsFromMap_rep hrepm hb0
    have hstall : storeAll [] l = l :=
      storeAll_append_absent l [] (fun it _ => rfl) hdist
    rw [hstall] at hrepb1
    obtain ⟨b2, hb2, hrepb2⟩ := AddItem_brep hrepb1 k x
    obtain ⟨bv, hbv, hvrep2⟩ := newVector_rep b2.buckets
    obtain ⟨hbuck2, hn2, hblen2, hdist2⟩ := hrepb2
    refine ⟨({ backingVector := bv, len := b2.length } : PMap K V), ?_, ?_⟩
    · unfold PMap.store
      rw [if_pos hgrow, hb1]
      show (match AddItem b1 ⟨k, x⟩ with
            | Except.error e => Except.error e
            | Except.ok b2 =>
              match newVector b2.buckets with
              | Except.error e => Except.error e
              | Except.ok bv =>
                Except.ok ({ backingVector := bv, len := b2.length } : PMap K V)) = _
      rw [hb2]
      show (match newVector b2.buckets with
            | Except.error e => Except.error e
            | Except.ok bv =>
              Except.ok ({ backingVector := bv, len := b2.length } : PMap K V)) = _
      rw [hbv]
    · exact ⟨true, _, hn2, by rw [← hbuck2]; exact hvrep2, hblen2, hdist2⟩
  · obtain ⟨_, hpos⟩ := mapRep_pos hrepm k
    have hget := mapRep_get0 hrepm
    have hstoreg : ∀ (newslot : Bucket K V),
        ∃ bv', PVec.set m.backingVector ((0 : Nat) : Int) newslot = .ok bv' ∧
          VRep false bv' ((List.replicate sz (none : Bucket K V)).set 0 newslot) := by
      intro newslot
      obtain ⟨bv', hset, hvrep', _, _⟩ := set_rep hvrep 0 (by rw [hbslen]; omega) newslot
      rw [List.set_set] at hvrep'
      exact ⟨bv', hset, hvrep'⟩
    by_cases hl : l.isEmpty
    · -- nil bucket: a fresh one-item bucket is stored
      have hnil : l = [] := List.isEmpty_iff.mp hl
      subst hnil
      obtain ⟨bv', hset, hvrep'⟩ := hstoreg (some [(⟨k, x⟩ : MapItem K V)])
      refine ⟨({ backingVector := bv', len := m.len + 1 } : PMap K V), ?_, ?_⟩
      · unfold PMap.store
        rw [if_neg hgrow, hpos]
        show (match PVec.get m.backingVector ((0 : Nat) : Int) with
              | Except.error e => Except.error e
              | Except.ok none =>
                (PVec.set m.backingVector ((0 : Nat) : Int) (some [(⟨k, x⟩ : MapItem K V)])).map
                  (fun bv => ({ backingVector := bv, len := m.len + 1 } : PMap K V))
              | Except.ok (some bucket) =>
                match updateBucket bucket (⟨k, x⟩ : MapItem K V) with
                | some newb =>
                  (PVec.set m.backingVector ((0 : Nat) : Int) (some newb)).map
                    (fun bv => ({ backingVector := bv, len := m.len } : PMap K V))
                | none =>
                  (PVec.set m.backingVector ((0 : Nat) : Int)
                      (some (bucket ++ [(⟨k, x⟩ : MapItem K V)]))).map
                    (fun bv => ({ backingVector := bv, len := m.len + 1 } : PMap K V))) = _
        rw [hget, if_pos hl]
        show (PVec.set m.backingVector ((0 : Nat) : Int) (some [(⟨k, x⟩ : MapItem K V)])).map
            (fun bv => ({ backingVector := bv, len := m.len + 1 } : PMap K V)) = _
        rw [hset]
        rfl
      · refine ⟨false, sz, hsz, ?_, ?_, storeKey_distinct [] k x hdist⟩
        · show VRep false bv' _
          rw [show storeKey ([] : List (MapItem K V)) k x = [⟨k, x⟩] from rfl]
          rw [if_neg (by simp)]
          exact hvrep'
        · show m.len + 1 = _
          rw [hmlen]
          simp [storeKey]
    · cases hscan : lookupScan l k with
      | some w =>
        -- overwrite in place
        obtain ⟨bv', hset, hvrep'⟩ := hstoreg (some (storeKey l k x))
        refine ⟨({ backingVector := bv', len := m.len } : PMap K V), ?_, ?_⟩
        · unfold PMap.store
          rw [if_neg hgrow, hpos]
          show (match PVec.get m.backingVector ((0 : Nat) : Int) with
                | Except.error e => Except.error e
                | Except.ok none =>
                  (PVec.set m.backingVector ((0 : Nat) : Int) (some [(⟨k, x⟩ : MapItem K V)])).map
                    (fun bv => ({ backingVector := bv, len := m.len + 1 } : PMap K V))
                | Except.ok (some bucket) =>
                  match updateBucket bucket (⟨k, x⟩ : MapItem K V) with
                  | some newb =>
                    (PVec.set m.backingVector ((0 : Nat) : Int) (some newb)).map
                      (fun bv => ({ backingVector := bv, len := m.len } : PMap K V))
                  | none =>
                    (PVec.set m.backingVector ((0 : Nat) : Int)
                        (some (bucket ++ [(⟨k, x⟩ : MapItem K V)]))).map
                      (fun bv => ({ backingVector := bv, len := m.len + 1 } : PMap K V))) = _
          rw [hget, if_neg hl]
          show (match updateBucket l ⟨k, x⟩ with
                | some newb =>
                  (PVec.set m.backingVector ((0 : Nat) : Int) (some newb)).map
                    (fun bv => ({ backingVector := bv, len := m.len } : PMap K V))
                | none =>
                  (PVec.set m.backingVector ((0 : Nat) : Int)
                      (some (l ++ [(⟨k, x⟩ : MapItem K V)]))).map
                    (fun bv => ({ backingVector := bv, len := m.len + 1 } : PMap K V))) = _
          rw [updateBucket_eq l k x, hscan]
          show (PVec.set m.backingVector ((0 : Nat) : Int) (some (storeKey l k x))).map
              (fun bv => ({ backingVector := bv, len := m.len } : PMap K V)) = _
          rw [hset]
          rfl
        · refine ⟨false, sz, hsz, ?_, ?_, storeKey_distinct l k x hdist⟩
          · show VRep false bv' _
            rw [if_neg (by rw [storeKey_isEmpty]; simp)]
            exact hvrep'
          · show m.len = _
            rw [hmlen, storeKey_length_present l k x w hscan]
      | none =>
        -- append a new item to the bucket
        obtain ⟨bv', hset, hvrep'⟩ := hstoreg (some (l ++ [(⟨k, x⟩ : MapItem K V)]))
        refine ⟨({ backingVector := bv', len := m.len + 1 } : PMap K V), ?_, ?_⟩
        · unfold PMap.store
          rw [if_neg hgrow, hpos]
          show (match PVec.get m.backingVector ((0 : Nat) : Int) with
                | Except.error e => Except.error e
                | Except.ok none =>
                  (PVec.set m.backingVector ((0 : Nat) : Int) (some [(⟨k, x⟩ : MapItem K V)])).map
                    (fun bv => ({ backingVector := bv, len := m.len + 1 } : PMap K V))
                | Except.ok (some bucket) =>
                  match updateBucket bucket (⟨k, x⟩ : MapItem K V) with
                  | some newb =>
                    (PVec.set m.backingVector ((0 : Nat) : Int) (some newb)).map
                      (fun bv => ({ backingVector := bv, len := m.len } : PMap K V))
                  | none =>
                    (PVec.set m.backingVector ((0 : Nat) : Int)
                        (some (bucket ++ [(⟨k, x⟩ : MapItem K V)]))).map
                      (fun bv => ({ backingVector := bv, len := m.len + 1 } : PMap K V))) = _
          rw [hget, if_neg hl]
          show (match updateBucket l ⟨k, x⟩ with
                | some newb =>
                  (PVec.set m.backingVector ((0 : Nat) : Int) (some newb)).map
                    (fun bv => ({ backingVector := bv, len := m.len } : PMap K V))
                | none =>
                  (PVec.set m.backingVector ((0 : Nat) : Int)
                      (some (l ++ [(⟨k, x⟩ : MapItem K V)]))).map
                    (fun bv => ({ backingVector := bv, len := m.len + 1 } : PMap K V))) = _
          rw [updateBucket_eq l k x, hscan]
          show (PVec.set m.backingVector ((0 : Nat) : Int) (some (l ++ [(⟨k, x⟩ : MapItem K V)]))).map
              (fun bv => ({ backingVector := bv, len := m.len + 1 } : PMap K V)) = _
          rw [hset]
          rfl
        · refine ⟨false, sz, hsz, ?_, ?_, storeKey_distinct l k x hdist⟩
          · show VRep false bv' _
            rw [storeKey_absent l k x hscan]
            rw [if_neg (by simp)]
            exact hvrep'
          · show m.len + 1 = _
            rw [hmlen, storeKey_absent l k x hscan]
            simp

/-- `Delete` under the invariant: the result is a represented map
without the key's item; when the key is absent the very same map value
is returned. -/
theorem delete_rep {K V : Type} [DecidableEq K] {m : PMap K V} {l : List (MapItem K V)}
    (hrep : MapRep m l) (k : K) :
    ∃ m', PMap.delete m k = .ok m' ∧ MapRep m' (removeKey l k) ∧
      (lookupScan l k = none → m' = m) := by
  obtain ⟨s, sz, hsz, hvrep, hmlen, hdist⟩ := hrep
  have hrepm : MapRep m l := ⟨s, sz, hsz, hvrep, hmlen, hdist⟩
  obtain ⟨_, hpos⟩ := mapRep_pos hrepm k
  have hget := mapRep_get0 hrepm
  have hbslen : ((List.replicate sz (none : Bucket K V)).set 0
      (if l.isEmpty then none else some l)).length = sz := by
    simp
  by_cases hl : l.isEmpty
  · -- nil bucket: return the map unchanged
    have hnil : l = [] := List.isEmpty_iff.mp hl
    subst hnil
    refine ⟨m, ?_, hrepm, fun _ => rfl⟩
    unfold PMap.delete
    rw [hpos]
    show (match PVec.get m.backingVector ((0 : Nat) : Int) with
          | Except.error e => Except.error e
          | Except.ok none => Except.ok m
          | Except.ok (some bucket) =>
            let newBucket := removeKey bucket k
            let removedItemCount := (bucket.length : Int) - (newBucket.length : Int)
            if removedItemCount = 0 then Except.ok m
            else
              match PVec.set m.backingVector ((0 : Nat) : Int)
                  (if newBucket.length = 0 then none else some newBucket) with
              | Except.error e => Except.error e
              | Except.ok bv =>
                let newMp : PMap K V :=
                  { backingVector := bv, len := m.len - removedItemCount }
                if 1 < newMp.backingVector.len ∧
                    newMp.len < (newMp.backingVector.len : Int) * 2 then
                  match PMap.addItemsFromMap (newPrivateItemBuckets newMp.len) newMp with
                  | Except.error e => Except.error e
                  | Except.ok b1 =>
                    match newVector b1.buckets with
                    | Except.error e => Except.error e
                    | Except.ok bv2 =>
                      Except.ok ({ backingVector := bv2, len := b1.length } : PMap K V)
                else Except.ok newMp) = _
    rw [hget, if_pos hl]
  · cases hscan : lookupScan l k with
    | none =>
      -- nothing removed: the unchanged map itself is returned
      have hrk : removeKey l k = l := removeKey_absent l k hscan
      refine ⟨m, ?_, by rw [hrk]; exact hrepm, fun _ => rfl⟩
      unfold PMap.delete
      rw [hpos]
      show (match PVec.get m.backingVector ((0 : Nat) : Int) with
            | Except.error e => Except.error e
            | Except.ok none => Except.ok m
            | Except.ok (some bucket) =>
              let newBucket := removeKey bucket k
              let removedItemCount := (bucket.length : Int) - (newBucket.length : Int)
              if removedItemCount = 0 then Except.ok m
              else
                match PVec.set m.backingVector ((0 : Nat) : Int)
                    (if newBucket.length = 0 then none else some newBucket) with
                | Except.error e => Except.error e
                | Except.ok bv =>
                  let newMp : PMap K V :=
                    { backingVector := bv, len := m.len - removedItemCount }
                  if 1 < newMp.backingVector.len ∧
                      newMp.len < (newMp.backingVector.len : Int) * 2 then
                    match PMap.addItemsFromMap (newPrivateItemBuckets newMp.len) newMp with
                    | Except.error e => Except.error e
                    | Except.ok b1 =>
                      match newVector b1.buckets with
                      | Except.error e => Except.error e
                      | Except.ok bv2 =>
                        Except.ok ({ backingVector := bv2, len := b1.length } : PMap K V)
                  else Except.ok newMp) = _
      rw [hget, if_neg hl]
      show (if (l.length : Int) - ((removeKey l k).length : Int) = 0 then Except.ok m
            else
              match PVec.set m.backingVector ((0 : Nat) : Int)
                  (if (removeKey l k).length = 0 then none else some (removeKey l k)) with
              | Except.error e => Except.error e
              | Except.ok bv =>
                if 1 < bv.len ∧
                    m.len - ((l.length : Int) - ((removeKey l k).length : Int)) <
                      (bv.len : Int) * 2 then
                  match PMap.addItemsFromMap
                      (newPrivateItemBuckets
                        (m.len - ((l.length : Int) - ((removeKey l k).length : Int))))
                      ({ backingVector := bv, len := m.len - ((l.length : Int) - ((removeKey l k).length : Int)) } : PMap K V) with
                  | Except.error e => Except.error e
                  | Except.ok b1 =>
                    match newVector b1.buckets with
                    | Except.error e => Except.error e
                    | Except.ok bv2 =>
                      Except.ok ({ backingVector := bv2, len := b1.length } : PMap K V)
                else
                  Except.ok ({ backingVector := bv, len := m.len - ((l.length : Int) - ((removeKey l k).length : Int)) } : PMap K V)) = _
      rw [if_pos (by rw [hrk]; omega)]
    | some w =>
      have hlt := removeKey_length_present l k w hscan
      have hle := removeKey_length_le l k
      have hcnt : ¬((l.length : Int) - ((removeKey l k).length : Int) = 0) := by
        omega
      obtain ⟨bv', hset, hvrep', hlen', _⟩ := set_rep hvrep 0 (by rw [hbslen]; omega)
        (if (removeKey l k).length = 0 then none else some (removeKey l k))
      rw [List.set_set] at hvrep'
      have hslot : (if (removeKey l k).length = 0 then none else some (removeKey l k)) =
          (if (removeKey l k).isEmpty then none else some (removeKey l k)) := by
        by_cases h0 : (removeKey l k).length = 0
        · rw [if_pos h0, if_pos (by
            rw [List.isEmpty_iff]
            exact List.eq_nil_of_length_eq_zero h0)]
        · rw [if_neg h0, if_neg (by
            rw [List.isEmpty_iff]
            intro h
            exact h0 (by rw [h]; rfl))]
      have hrepNew : MapRep
          ({ backingVector := bv',
             len := m.len - ((l.length : Int) - ((removeKey l k).length : Int)) } : PMap K V)
          (removeKey l k) := by
        refine ⟨false, sz, hsz, ?_, ?_, removeKey_distinct l k hdist⟩
        · show VRep false bv' _
          rw [← hslot]
          exact hvrep'
        · show m.len - _ = ((removeKey l k).length : Int)
          rw [hmlen]
          omega
      have heqn : ∀ m0 : PMap K V, PMap.delete m k =
          (if (l.length : Int) - ((removeKey l k).length : Int) = 0 then Except.ok m
            else
              match PVec.set m.backingVector ((0 : Nat) : Int)
                  (if (removeKey l k).length = 0 then none else some (removeKey l k)) with
              | Except.error e => Except.error e
              | Except.ok bv =>
                if 1 < bv.len ∧
                    m.len - ((l.length : Int) - ((removeKey l k).length : Int)) <
                      (bv.len : Int) * 2 then
                  match PMap.addItemsFromMap
                      (newPrivateItemBuckets
                        (m.len - ((l.length : Int) - ((removeKey l k).length : Int))))
                      ({ backingVector := bv, len := m.len - ((l.length : Int) - ((removeKey l k).length : Int)) } : PMap K V) with
                  | Except.error e => Except.error e
                  | Except.ok b1 =>
                    match newVector b1.buckets with
                    | Except.error e => Except.error e
                    | Except.ok bv2 =>
                      Except.ok ({ backingVector := bv2, len := b1.length } : PMap K V)
                else
                  Except.ok ({ backingVector := bv, len := m.len - ((l.length : Int) - ((removeKey l k).length : Int)) } : PMap K V)) := by
        intro _
        unfold PMap.delete
        rw [hpos]
        show (match PVec.get m.backingVector ((0 : Nat) : Int) with
              | Except.error e => Except.error e
              | Except.ok none => Except.ok m
              | Except.ok (some bucket) =>
                let newBucket := removeKey bucket k
                let removedItemCount := (bucket.length : Int) - (newBucket.length : Int)
                if removedItemCount = 0 then Except.ok m
                else
                  match PVec.set m.backingVector ((0 : Nat) : Int)
                      (if newBucket.length = 0 then none else some newBucket) with
                  | Except.error e => Except.error e
                  | Except.ok bv =>
                    let newMp : PMap K V :=
                      { backingVector := bv, len := m.len - removedItemCount }
                    if 1 < newMp.backingVector.len ∧
                        newMp.len < (newMp.backingVector.len : Int) * 2 then
                      match PMap.addItemsFromMap (newPrivateItemBuckets newMp.len) newMp with
                      | Except.error e => Except.error e
                      | Except.ok b1 =>
                        match newVector b1.buckets with
                        | Except.error e => Except.error e
                        | Except.ok bv2 =>
                          Except.ok ({ backingVector := bv2, len := b1.length } : PMap K V)
                    else Except.ok newMp) = _
        rw [hget, if_neg hl]
      have hdel : PMap.delete m k =
          (if 1 < bv'.len ∧
              m.len - ((l.length : Int) - ((removeKey l k).length : Int)) <
                (bv'.len : Int) * 2 then
            match PMap.addItemsFromMap
                (newPrivateItemBuckets
                  (m.len - ((l.length : Int) - ((removeKey l k).length : Int))))
                ({ backingVector := bv', len := m.len - ((l.length : Int) - ((removeKey l k).length : Int)) } : PMap K V) with
            | Except.error e => Except.error e
            | Except.ok b1 =>
              match newVector b1.buckets with
              | Except.error e => Except.error e
              | Except.ok bv2 =>
                Except.ok ({ backingVector := bv2, len := b1.length } : PMap K V)
          else
            Except.ok ({ backingVector := bv', len := m.len - ((l.length : Int) - ((removeKey l k).length : Int)) } : PMap K V)) := by
        rw [heqn m, if_neg hcnt, hset]
      by_cases hshrink : 1 < bv'.len ∧
          m.len - ((l.length : Int) - ((removeKey l k).length : Int)) < (bv'.len : Int) * 2
      · -- shrink: rebuild at the smaller size
        have hb0 := newPrivateItemBuckets_brep (K := K) (V := V)
          (m.len - ((l.length : Int) - ((removeKey l k).length : Int)))
          (by rw [hmlen]; omega)
        obtain ⟨b1, hb1, hrepb1⟩ := addItemsFromMap_rep hrepNew hb0
        have hstall : storeAll [] (removeKey l k) = removeKey l k :=
          storeAll_append_absent (removeKey l k) [] (fun it _ => rfl)
            (removeKey_distinct l k hdist)
        rw [hstall] at hrepb1
        obtain ⟨bv2, hbv2, hvrep2⟩ := newVector_rep b1.buckets
        obtain ⟨hbuck1, hn1, hblen1, hdist1⟩ := hrepb1
        refine ⟨({ backingVector := bv2, len := b1.length } : PMap K V), ?_,
          ⟨true, _, hn1, by rw [← hbuck1]; exact hvrep2, hblen1, hdist1⟩,
          fun habs => Option.noConfusion habs⟩
        rw [hdel, if_pos hshrink, hb1]
        show (match newVector b1.buckets with
              | Except.error e => Except.error e
              | Except.ok bv2 =>
                Except.ok ({ backingVector := bv2, len := b1.length } : PMap K V)) = _
        rw [hbv2]
      · refine ⟨_, ?_, hrepNew, fun habs => Option.noConfusion habs⟩
        rw [hdel, if_neg hshrink]

theorem mapRep_bvlen {K V : Type} {m : PMap K V} {l : List (MapItem K V)}
    (h : MapRep m l) : 1 ≤ m.backingVector.len := by
  obtain ⟨s, sz, hsz, hvrep, _, _⟩ := h
  have hlen : m.backingVector.len = sz := by
    rw [hvrep.1]
    simp
  omega

theorem earlyFold_bucketVisitor_replicate {K V S : Type} (f : S → K → V → S × Bool) :
    ∀ (n : Nat) (st : S),
      earlyFold (PMap.bucketVisitor f) st (List.replicate n (none : Bucket K V)) =
        (st, true) := by
  intro n
  induction n with
  | zero => intro st; rfl
  | succ m ih =>
    intro st
    rw [List.replicate_succ, earlyFold_cons]
    rw [show PMap.bucketVisitor f st (none : Bucket K V) = (st, true) from rfl]
    rw [if_pos rfl]
    exact ih st

/-- `Map.Range` computes the early-exit fold of the map's items. -/
theorem mapRange_fold {K V S : Type} {m : PMap K V} {l : List (MapItem K V)}
    (hrep : MapRep m l) (f : S → K → V → S × Bool) (st : S) :
    PMap.range m f st =
      .ok (earlyFold (fun s2 it => f s2 it.Key it.Value) st l).1 := by
  obtain ⟨s, sz, hsz, hvrep, _, _⟩ := hrep
  unfold PMap.range
  rw [range_fold hvrep (PMap.bucketVisitor f) st]
  congr 1
  rw [replicate_set_cons sz none _ hsz]
  by_cases hl : l.isEmpty
  · rw [if_pos hl, ← List.replicate_succ, earlyFold_bucketVisitor_replicate]
    have hnil : l = [] := List.isEmpty_iff.mp hl
    subst hnil
    rfl
  · rw [if_neg hl, earlyFold_cons]
    show (if (PMap.bucketVisitor f st (some l)).2 then
            earlyFold (PMap.bucketVisitor f) (PMap.bucketVisitor f st (some l)).1
              (List.replicate (sz - 1) none)
          else ((PMap.bucketVisitor f st (some l)).1, false)).1 = _
    rw [show PMap.bucketVisitor f st (some l) =
          earlyFold (fun s2 it => f s2 it.Key it.Value) st l from rfl]
    by_cases hb : (earlyFold (fun s2 it => f s2 it.Key it.Value) st l).2
    · rw [if_pos hb, earlyFold_bucketVisitor_replicate]
    · rw [if_neg hb]

theorem earlyFold_collect_pair {K V : Type} :
    ∀ (l : List (MapItem K V)) (acc : List (K × V)),
      earlyFold (fun acc it => (acc ++ [(it.Key, it.Value)], true)) acc l =
        (acc ++ l.map (fun it => (it.Key, it.Value)), true) := by
  intro l
  induction l with
  | nil => intro acc; simp
  | cons it its ih =>
    intro acc
    rw [earlyFold_cons]
    simp only [if_pos]
    rw [ih]
    simp

/-! ## Claims C6, C7, C8, C10 -/

/-- C6: Load semantics — on a represented map, `Load` of a key that is
not stored returns `found = false` with the value type's zero value and
never fails; `Load` of a stored key returns its (most recently stored)
value with `found = true`. -/
theorem claim_C6_load_semantics {K V : Type} [DecidableEq K] [Inhabited V]
    {m : PMap K V} {l : List (MapItem K V)} (hrep : MapRep m l) (k : K) :
    (lookupScan l k = none → PMap.load m k = .ok (default, false)) ∧
    (∀ x, lookupScan l k = some x → PMap.load m k = .ok (x, true)) := by
  constructor
  · intro habs
    rw [load_rep hrep k, habs]
  · intro x hx
    rw [load_rep hrep k, hx]

/-- A tiny concrete vector used to witness the range claim. -/
def exampleVec : PVec Nat :=
  { root := emptyCommonNode, shift := shiftSize, tail := [10, 20], len := 2 }

/-- A tiny concrete map (one item, key 1 ↦ value 10) used to witness
the map claims. -/
def exampleMap : PMap Nat Nat where
  backingVector :=
    { root := emptyCommonNode, shift := shiftSize, tail := [some [⟨1, 10⟩]], len := 1 }
  len := 1

theorem mapRep_example : MapRep exampleMap [(⟨1, 10⟩ : MapItem Nat Nat)] := by
  refine ⟨true, 1, le_refl 1, ?_, rfl, List.pairwise_singleton _ _⟩
  show VRep true _ _
  exact small_rep [some [(⟨1, 10⟩ : MapItem Nat Nat)]] (by norm_num)

theorem claim_C6_load_semantics_witness :
    (lookupScan [(⟨1, 10⟩ : MapItem Nat Nat)] 1 = none →
      PMap.load exampleMap 1 = .ok (default, false)) ∧
    (∀ x, lookupScan [(⟨1, 10⟩ : MapItem Nat Nat)] 1 = some x →
      PMap.load exampleMap 1 = .ok (x, true)) :=
  claim_C6_load_semantics mapRep_example 1

/-- C7: Delete is the identity on an absent key — the very same map
value is returned (in Go, the same handle, with no new allocation). -/
theorem claim_C7_delete_identity {K V : Type} [DecidableEq K]
    {m : PMap K V} {l : List (MapItem K V)} (hrep : MapRep m l) (k : K)
    (habs : lookupScan l k = none) :
    PMap.delete m k = .ok m := by
  obtain ⟨m', hdel, _, hid⟩ := delete_rep hrep k
  rw [hdel, hid habs]

theorem claim_C7_delete_identity_witness :
    PMap.delete exampleMap 2 = .ok exampleMap :=
  claim_C7_delete_identity mapRep_example 2 rfl

/-- C8: Range cancellation — over a represented vector (resp. map) with
`n` elements, a visitor that counts its calls and asks to stop on the
`k`-th one (`1 ≤ k ≤ n`) is invoked exactly `k` times, and a visitor
that never stops is invoked once per element in index order. -/
theorem claim_C8_range_cancellation {T K V : Type} [Inhabited T] [DecidableEq K]
    {s : Bool} {v : PVec T} {es : List T} (hrep : VRep s v es)
    {m : PMap K V} {l : List (MapItem K V)} (hmrep : MapRep m l) (k : Nat) :
    (1 ≤ k → k ≤ es.length →
      PVec.range v (fun c _ => (c + 1, decide (c + 1 ≠ k))) 0 = .ok k) ∧
    (PVec.range v (fun acc x => (acc ++ [x], true)) [] = .ok es) ∧
    (1 ≤ k → k ≤ l.length →
      PMap.range m (fun c _ _ => (c + 1, decide (c + 1 ≠ k))) 0 = .ok k) ∧
    (PMap.range m (fun acc ky vl => (acc ++ [(ky, vl)], true)) [] =
      .ok (l.map (fun it => (it.Key, it.Value)))) := by
  refine ⟨?_, ?_, ?_, ?_⟩
  · intro hk1 hkn
    rw [range_fold hrep _ 0]
    congr 1
    rw [earlyFold_count k es 0 (by omega)]
    omega
  · rw [range_fold hrep _ []]
    congr 1
    rw [earlyFold_collect es []]
    simp
  · intro hk1 hkn
    rw [mapRange_fold hmrep _ 0]
    congr 1
    show (earlyFold (fun c (_ : MapItem K V) => (c + 1, decide (c + 1 ≠ k))) 0 l).1 = k
    rw [earlyFold_count k l 0 (by omega)]
    omega
  · rw [mapRange_fold hmrep _ []]
    congr 1
    show (earlyFold (fun acc (it : MapItem K V) =>
        (acc ++ [(it.Key, it.Value)], true)) [] l).1 = _
    rw [earlyFold_collect_pair l []]
    simp

theorem claim_C8_range_cancellation_witness :
    (1 ≤ 1 → 1 ≤ ([10, 20] : List Nat).length →
      PVec.range exampleVec (fun c _ => (c + 1, decide (c + 1 ≠ 1))) 0 = .ok 1) ∧
    (PVec.range exampleVec (fun acc x => (acc ++ [x], true)) [] = .ok [10, 20]) ∧
    (1 ≤ 1 → 1 ≤ ([(⟨1, 10⟩ : MapItem Nat Nat)]).length →
      PMap.range exampleMap (fun c _ _ => (c + 1, decide (c + 1 ≠ 1))) 0 = .ok 1) ∧
    (PMap.range exampleMap (fun acc ky vl => (acc ++ [(ky, vl)], true)) [] =
      .ok (([(⟨1, 10⟩ : MapItem Nat Nat)]).map (fun it => (it.Key, it.Value)))) :=
  claim_C8_range_cancellation (small_rep [10, 20] (by norm_num)) mapRep_example 1

/-- C10: the bucket-vector invariant — `newMap` (the body of `NewMap`
and of `NewMapFromNativeMap`) establishes, and `Store` and `Delete`
preserve, the representation invariant `MapRep`, which forces the
backing bucket vector to have length at least 1; consequently
`pos = hash % len` is well-defined (never a modulo by zero) and
`Load`, `Store` and `Delete` are total on every reachable map,
including the empty one. -/
theorem claim_C10_bucket_vector_invariant {K V : Type} [DecidableEq K] [Inhabited V] :
    (∀ items : List (MapItem K V), ∃ m, PMap.newMap items = .ok m ∧
      MapRep m (storeAll [] items) ∧ 1 ≤ m.backingVector.len) ∧
    (∀ (m : PMap K V) (l : List (MapItem K V)) (k : K) (x : V), MapRep m l →
      ∃ m', PMap.store m k x = .ok m' ∧ MapRep m' (storeKey l k x) ∧
        1 ≤ m'.backingVector.len) ∧
    (∀ (m : PMap K V) (l : List (MapItem K V)) (k : K), MapRep m l →
      ∃ m', PMap.delete m k = .ok m' ∧ MapRep m' (removeKey l k) ∧
        1 ≤ m'.backingVector.len) ∧
    (∀ (m : PMap K V) (l : List (MapItem K V)) (k : K), MapRep m l →
      PMap.pos m k = .ok 0 ∧ ∃ r, PMap.load m k = .ok r) := by
  refine ⟨?_, ?_, ?_, ?_⟩
  · intro items
    obtain ⟨m, hm, hrep⟩ := newMap_rep items
    exact ⟨m, hm, hrep, mapRep_bvlen hrep⟩
  · intro m l k x hrep
    obtain ⟨m', hm', hrep'⟩ := store_rep hrep k x
    exact ⟨m', hm', hrep', mapRep_bvlen hrep'⟩
  · intro m l k hrep
    obtain ⟨m', hm', hrep', _⟩ := delete_rep hrep k
    exact ⟨m', hm', hrep', mapRep_bvlen hrep'⟩
  · intro m l k hrep
    exact ⟨(mapRep_pos hrep k).2, ⟨_, load_rep hrep k⟩⟩

/-! ## Claim C1: persistence of vector handles, via an explicit heap

Go shares trie nodes between vector handles through pointers; the frame
claim is about mutation of that shared state.  The heap embedding makes
the sharing explicit: trie nodes live in an append-only cell store,
internal nodes hold child *addresses*, and the operations allocate new
cells (Go's `make` + `copy`) while sharing the unchanged subtrees of the
argument handle.  `pushTail`'s unbounded descent is bounded by a `fuel`
argument which `pushLeafNode` sets to the vector's shift — at five bits
per level that covers every descent the source can make. -/

/-- A heap cell: a leaf (`[]T`) or an internal node (`[]commonNode`,
whose entries are child addresses, `none` being a nil entry). -/
inductive HCell (T : Type) where
  | leafC : List T → HCell T
  | internalC : List (Option Nat) → HCell T

/-- The heap: address `a` denotes `H.get? a`; allocation appends. -/
abbrev Heap (T : Type) := List (HCell T)

def danglingMsg : String := "invalid memory address"

/-- The new heap only appends cells: every old address keeps its cell. -/
def StoreExt {T : Type} (H H2 : Heap T) : Prop := ∃ tl, H2 = H ++ tl

/-- The addresses a cell mentions. -/
def cellAddrs {T : Type} : HCell T → List Nat
  | .leafC _ => []
  | .internalC cs => cs.filterMap id

/-- Every address stored in the heap points into the heap. -/
def WFHeap {T : Type} (H : Heap T) : Prop :=
  ∀ c ∈ H, ∀ b ∈ cellAddrs c, b < H.length

/-- A vector handle whose root is a heap address. -/
structure HVec (T : Type) where
  tail : List T
  root : Nat
  len : Nat
  shift : Nat

def alloc {T : Type} (H : Heap T) (c : HCell T) : Heap T × Nat := (H ++ [c], H.length)

def hTailOffset {T : Type} (v : HVec T) : Nat :=
  if v.len < nodeSize then 0 else ((v.len - 1) >>> shiftSize) <<< shiftSize

/-- `sliceFor`'s descent, reading nodes through the heap. -/
def hSliceForNode {T : Type} (H : Heap T) (a : Nat) (level : Nat) (i : Nat) :
    Except String (List T) :=
  if 0 < level then
    match H.get? a with
    | none => .error danglingMsg
    | some (.leafC _) => .error interfaceConversionMsg
    | some (.internalC cs) =>
      match cs.get? ((i >>> level) &&& shiftBitMask) with
      | none => .error indexOutOfRangeMsg
      | some none => .error interfaceConversionMsg
      | some (some child) => hSliceForNode H child (level - shiftSize) i
  else
    match H.get? a with
    | none => .error danglingMsg
    | some (.leafC l) => .ok l
    | some (.internalC _) => .error interfaceConversionMsg
termination_by level
decreasing_by
  simp only [shiftSize]
  omega

def hSliceFor {T : Type} (H : Heap T) (v : HVec T) (i : Nat) : Except String (List T) :=
  if i ≥ hTailOffset v then .ok v.tail else hSliceForNode H v.root v.shift i

/-- Go `Vector.Get` over the heap. -/
def hGet {T : Type} (H : Heap T) (v : HVec T) (i : Int) : Except String T :=
  if i < 0 ∨ v.len ≤ i.toNat then .error "Index out of bounds"
  else
    match hSliceFor H v i.toNat with
    | .error e => .error e
    | .ok s =>
      match s.get? (i.toNat &&& shiftBitMask) with
      | some x => .ok x
      | none => .error indexOutOfRangeMsg

/-- Go `newPath` over the heap: allocates the chain of singleton nodes. -/
def hNewPath {T : Type} (H : Heap T) (shift : Nat) (a : Nat) : Heap T × Nat :=
  if shift = 0 then (H, a)
  else
    let p := alloc H (.internalC [some a])
    hNewPath p.1 (shift - shiftSize) p.2
termination_by shift
decreasing_by
  simp only [shiftSize]
  omega

/-- Go `Vector.pushTail` over the heap (descent bounded by `fuel`). -/
def hPushTail {T : Type} (H : Heap T) (fuel : Nat) (vlen level : Nat)
    (parent : Option Nat) (tailAddr : Nat) : Heap T × Except String Nat :=
  match parent with
  | none => (H, .error interfaceConversionMsg)
  | some pa =>
    match H.get? pa with
    | none => (H, .error danglingMsg)
    | some (.leafC _) => (H, .error interfaceConversionMsg)
    | some (.internalC parentNode) =>
      let subIdx := ((vlen - 1) >>> level) &&& shiftBitMask
      if level = shiftSize then
        let p := alloc H
          (.internalC ((goCopy (subIdx + 1) parentNode none).set subIdx (some tailAddr)))
        (p.1, .ok p.2)
      else if subIdx < parentNode.length then
        match fuel with
        | 0 => (H, .error danglingMsg)
        | fuel + 1 =>
          match hPushTail H fuel vlen (level - shiftSize)
              (parentNode.getD subIdx none) tailAddr with
          | (H1, .error e) => (H1, .error e)
          | (H1, .ok nd) =>
            let p := alloc H1
              (.internalC ((goCopy (subIdx + 1) parentNode none).set subIdx (some nd)))
            (p.1, .ok p.2)
      else
        let np := hNewPath H (level - shiftSize) tailAddr
        let p := alloc np.1
          (.internalC ((goCopy (subIdx + 1) parentNode none).set subIdx (some np.2)))
        (p.1, .ok p.2)

/-- Go `Vector.pushLeafNode` over the heap: the flushed tail becomes a
new leaf cell. -/
def hPushLeafNode {T : Type} (H : Heap T) (v : HVec T) (node : List T) :
    Heap T × Except String (HVec T) :=
  let pt := alloc H (.leafC node)
  if (v.len >>> shiftSize) > (1 <<< v.shift) then
    let np := hNewPath pt.1 v.shift pt.2
    let pr := alloc np.1 (.internalC [some v.root, some np.2])
    (pr.1, .ok { root := pr.2, tail := v.tail, len := v.len, shift := v.shift + shiftSize })
  else
    match hPushTail pt.1 v.shift v.len v.shift (some v.root) pt.2 with
    | (H1, .error e) => (H1, .error e)
    | (H1, .ok nr) => (H1, .ok { root := nr, tail := v.tail, len := v.len, shift := v.shift })

/-- The loop of Go `Vector.Append` over the heap. -/
def hAppendLoop {T : Type} (H : Heap T) (result : HVec T) (remaining : List T) :
    Heap T × Except String (HVec T) :=
  match hrem : remaining with
  | [] => (H, .ok result)
  | _ :: _ =>
    if hfree : nodeSize - (result.len - hTailOffset result) = 0 then
      match hPushLeafNode H result result.tail with
      | (H1, .error e) => (H1, .error e)
      | (H1, .ok r1) =>
        let batchLen := uintMin remaining.length nodeSize
        let newTail : List T := [] ++ remaining.take batchLen
        hAppendLoop H1 { r1 with tail := newTail, len := r1.len + batchLen }
          (remaining.drop batchLen)
    else
      let batchLen := uintMin remaining.length (nodeSize - (result.len - hTailOffset result))
      let newTail := result.tail ++ remaining.take batchLen
      hAppendLoop H { result with tail := newTail, len := result.len + batchLen }
        (remaining.drop batchLen)
termination_by remaining.length
decreasing_by
  all_goals
    simp only [hrem, List.length_drop, List.length_cons, uintMin, nodeSize] at *
    split <;> omega

/-- Go `Vector.Append` over the heap. -/
def hAppend {T : Type} (H : Heap T) (v : HVec T) (items : List T) :
    Heap T × Except String (HVec T) :=
  hAppendLoop H v items

/-- Go `Vector.doAssoc` over the heap. -/
def hDoAssoc {T : Type} [Inhabited T] (H : Heap T) (level : Nat) (a : Option Nat)
    (i : Nat) (item : T) : Heap T × Except String Nat :=
  match a with
  | none => (H, .error interfaceConversionMsg)
  | some ad =>
    match H.get? ad with
    | none => (H, .error danglingMsg)
    | some cell =>
      if level = 0 then
        match cell with
        | .leafC l =>
          let p := alloc H (.leafC ((goCopy nodeSize l default).set (i &&& shiftBitMask) item))
          (p.1, .ok p.2)
        | .internalC _ => (H, .error interfaceConversionMsg)
      else
        match cell with
        | .leafC _ => (H, .error interfaceConversionMsg)
        | .internalC cs =>
          let ret := goCopy nodeSize cs none
          let subidx := (i >>> level) &&& shiftBitMask
          match hDoAssoc H (level - shiftSize) (ret.getD subidx none) i item with
          | (H1, .error e) => (H1, .error e)
          | (H1, .ok child) =>
            let p := alloc H1 (.internalC (ret.set subidx (some child)))
            (p.1, .ok p.2)
termination_by level
decreasing_by
  simp only [shiftSize]
  omega

/-- Go `Vector.Set` over the heap. -/
def hSet {T : Type} [Inhabited T] (H : Heap T) (v : HVec T) (i : Int) (item : T) :
    Heap T × Except String (HVec T) :=
  if i < 0 ∨ v.len ≤ i.toNat then (H, .error "Index out of bounds")
  else if hTailOffset v ≤ i.toNat then
    match goWrite v.tail (i.toNat &&& shiftBitMask) item with
    | .error e => (H, .error e)
    | .ok nt => (H, .ok { v with tail := nt })
  else
    match hDoAssoc H v.shift (some v.root) i.toNat item with
    | (H1, .error e) => (H1, .error e)
    | (H1, .ok nr) => (H1, .ok { v with root := nr })

theorem heap_get_append {T : Type} (H tl : Heap T) (a : Nat) (ha : a < H.length) :
    (H ++ tl).get? a = H.get? a := by
  rw [List.get?_eq_getElem?, List.get?_eq_getElem?, List.getElem?_append, if_pos ha]

theorem storeExt_refl {T : Type} (H : Heap T) : StoreExt H H :=
  ⟨[], (List.append_nil H).symm⟩

theorem storeExt_trans {T : Type} {H1 H2 H3 : Heap T} :
    StoreExt H1 H2 → StoreExt H2 H3 → StoreExt H1 H3 := by
  rintro ⟨t1, rfl⟩ ⟨t2, rfl⟩
  exact ⟨t1 ++ t2, List.append_assoc _ _ _⟩

theorem storeExt_alloc {T : Type} (H : Heap T) (c : HCell T) : StoreExt H (alloc H c).1 :=
  ⟨[c], rfl⟩

/-- `newPath` only allocates: the heap is extended. -/
theorem hNewPath_ext {T : Type} :
    ∀ (n : Nat) (H : Heap T) (shift a : Nat), shift ≤ n →
      StoreExt H (hNewPath H shift a).1 := by
  intro n
  induction n with
  | zero =>
    intro H shift a hn
    rw [hNewPath.eq_def, if_pos (by omega : shift = 0)]
    exact storeExt_refl H
  | succ n ih =>
    intro H shift a hn
    rw [hNewPath.eq_def]
    by_cases h0 : shift = 0
    · rw [if_pos h0]
      exact storeExt_refl H
    · rw [if_neg h0]
      exact storeExt_trans (storeExt_alloc H _)
        (ih _ (shift - shiftSize) _ (by simp only [shiftSize]; omega))

/-- `pushTail` only allocates: the heap is extended. -/
theorem hPushTail_ext {T : Type} :
    ∀ (fuel : Nat) (H : Heap T) (vlen level : Nat) (parent : Option Nat) (ta : Nat),
      StoreExt H (hPushTail H fuel vlen level parent ta).1 := by
  intro fuel
  induction fuel with
  | zero =>
    intro H vlen level parent ta
    rw [hPushTail.eq_def]
    cases parent with
    | none => exact storeExt_refl H
    | some pa =>
      dsimp only
      cases H.get? pa with
      | none => exact storeExt_refl H
      | some cell =>
        cases cell with
        | leafC l => exact storeExt_refl H
        | internalC pn =>
          dsimp only
          split
          · exact storeExt_alloc H _
          · split
            · exact storeExt_refl H
            · exact storeExt_trans
                (hNewPath_ext (level - shiftSize) H (level - shiftSize) ta (le_refl _))
                (storeExt_alloc _ _)
  | succ fuel ih =>
    intro H vlen level parent ta
    rw [hPushTail.eq_def]
    cases parent with
    | none => exact storeExt_refl H
    | some pa =>
      dsimp only
      cases H.get? pa with
      | none => exact storeExt_refl H
      | some cell =>
        cases cell with
        | leafC l => exact storeExt_refl H
        | internalC pn =>
          dsimp only
          split
          · exact storeExt_alloc H _
          · split
            · cases hrec : hPushTail H fuel vlen (level - shiftSize)
                (pn.getD (((vlen - 1) >>> level) &&& shiftBitMask) none) ta with
              | mk H1 r =>
                have hx : StoreExt H H1 := by
                  have h1 := ih H vlen (level - shiftSize)
                    (pn.getD (((vlen - 1) >>> level) &&& shiftBitMask) none) ta
                  rwa [hrec] at h1
                cases r with
                | error e => exact hx
                | ok nd => exact storeExt_trans hx (storeExt_alloc _ _)
            · exact storeExt_trans
                (hNewPath_ext (level - shiftSize) H (level - shiftSize) ta (le_refl _))
                (storeExt_alloc _ _)

/-- `doAssoc` only allocates: the heap is extended. -/
theorem hDoAssoc_ext {T : Type} [Inhabited T] :
    ∀ (n : Nat) (H : Heap T) (level : Nat) (a : Option Nat) (i : Nat) (item : T),
      level ≤ n → StoreExt H (hDoAssoc H level a i item).1 := by
  intro n
  induction n with
  | zero =>
    intro H level a i item hn
    rw [hDoAssoc.eq_def]
    cases a with
    | none => exact storeExt_refl H
    | some ad =>
      dsimp only
      cases H.get? ad with
      | none => exact storeExt_refl H
      | some cell =>
        dsimp only
        rw [if_pos (by omega : level = 0)]
        cases cell with
        | leafC l => exact storeExt_alloc H _
        | internalC cs => exact storeExt_refl H
  | succ n ih =>
    intro H level a i item hn
    rw [hDoAssoc.eq_def]
    cases a with
    | none => exact storeExt_refl H
    | some ad =>
      dsimp only
      cases H.get? ad with
      | none => exact storeExt_refl H
      | some cell =>
        dsimp only
        by_cases h0 : level = 0
        · rw [if_pos h0]
          cases cell with
          | leafC l => exact storeExt_alloc H _
          | internalC cs => exact storeExt_refl H
        · rw [if_neg h0]
          cases cell with
          | leafC l => exact storeExt_refl H
          | internalC cs =>
            dsimp only
            cases hrec : hDoAssoc H (level - shiftSize)
                ((goCopy nodeSize cs none).getD ((i >>> level) &&& shiftBitMask) none)
                i item with
            | mk H1 r =>
              have hx : StoreExt H H1 := by
                have h1 := ih H (level - shiftSize)
                  ((goCopy nodeSize cs none).getD ((i >>> level) &&& shiftBitMask) none)
                  i item (by simp only [shiftSize]; omega)
                rwa [hrec] at h1
              cases r with
              | error e => exact hx
              | ok child => exact storeExt_trans hx (storeExt_alloc _ _)

/-- `pushLeafNode` only allocates: the heap is extended. -/
theorem hPushLeafNode_ext {T : Type} (H : Heap T) (v : HVec T) (node : List T) :
    StoreExt H (hPushLeafNode H v node).1 := by
  rw [hPushLeafNode.eq_def]
  dsimp only
  split
  · exact storeExt_trans (storeExt_alloc H _)
      (storeExt_trans
        (hNewPath_ext v.shift _ v.shift (alloc H (.leafC node)).2 (le_refl _))
        (storeExt_alloc _ _))
  · cases hpt : hPushTail (alloc H (.leafC node)).1 v.shift v.len v.shift (some v.root)
        (alloc H (.leafC node)).2 with
    | mk H1 r =>
      have hx : StoreExt H H1 := by
        have h1 := hPushTail_ext v.shift (alloc H (.leafC node)).1 v.len v.shift
          (some v.root) (alloc H (.leafC node)).2
        rw [hpt] at h1
        exact storeExt_trans (storeExt_alloc H _) h1
      cases r with
      | error e => exact hx
      | ok nr => exact hx

/-- The `Append` loop only allocates: the heap is extended. -/
theorem hAppendLoop_ext {T : Type} :
    ∀ (n : Nat) (H : Heap T) (result : HVec T) (remaining : List T),
      remaining.length ≤ n → StoreExt H (hAppendLoop H result remaining).1 := by
  intro n
  induction n with
  | zero =>
    intro H result remaining hn
    cases remaining with
    | nil =>
      rw [hAppendLoop.eq_def]
      exact storeExt_refl H
    | cons x xs => exact absurd hn (by simp)
  | succ n ih =>
    intro H result remaining hn
    cases remaining with
    | nil =>
      rw [hAppendLoop.eq_def]
      exact storeExt_refl H
    | cons x xs =>
      rw [hAppendLoop.eq_def]
      dsimp only
      split
      · cases hpl : hPushLeafNode H result result.tail with
        | mk H1 r =>
          have hx : StoreExt H H1 := by
            have h1 := hPushLeafNode_ext H result result.tail
            rwa [hpl] at h1
          cases r with
          | error e => exact hx
          | ok r1 =>
            refine storeExt_trans hx (ih H1 _ _ ?_)
            rw [List.length_drop, uintMin_eq_min]
            simp only [List.length_cons, nodeSize] at hn ⊢
            omega
      · refine ih H _ _ ?_
        rename_i hfree
        rw [List.length_drop, uintMin_eq_min]
        simp only [List.length_cons] at hn ⊢
        omega

/-- `Append` only allocates: the heap is extended. -/
theorem hAppend_ext {T : Type} (H : Heap T) (v : HVec T) (items : List T) :
    StoreExt H (hAppend H v items).1 :=
  hAppendLoop_ext items.length H v items (le_refl _)

/-- `Set` only allocates: the heap is extended. -/
theorem hSet_ext {T : Type} [Inhabited T] (H : Heap T) (v : HVec T) (i : Int) (item : T) :
    StoreExt H (hSet H v i item).1 := by
  rw [hSet.eq_def]
  split
  · exact storeExt_refl H
  · split
    · cases goWrite v.tail (i.toNat &&& shiftBitMask) item with
      | error e => exact storeExt_refl H
      | ok nt => exact storeExt_refl H
    · cases hrec : hDoAssoc H v.shift (some v.root) i.toNat item with
      | mk H1 r =>
        have hx : StoreExt H H1 := by
          have h1 := hDoAssoc_ext v.shift H v.shift (some v.root) i.toNat item (le_refl _)
          rwa [hrec] at h1
        cases r with
        | error e => exact hx
        | ok nr => exact hx

/-- Reads through old addresses are unchanged by extending the heap. -/
theorem hSliceForNode_agree {T : Type} (H tl : Heap T) (hwf : WFHeap H) :
    ∀ (n level a i : Nat), level ≤ n → a < H.length →
      hSliceForNode (H ++ tl) a level i = hSliceForNode H a level i := by
  intro n
  induction n with
  | zero =>
    intro level a i hlev ha
    rw [hSliceForNode.eq_def, hSliceForNode.eq_def,
      if_neg (by omega : ¬ 0 < level), if_neg (by omega : ¬ 0 < level),
      heap_get_append H tl a ha]
  | succ n ih =>
    intro level a i hlev ha
    by_cases h0 : 0 < level
    · rw [hSliceForNode.eq_def, hSliceForNode.eq_def, if_pos h0, if_pos h0,
        heap_get_append H tl a ha]
      cases hc : H.get? a with
      | none => rfl
      | some cell =>
        cases cell with
        | leafC l => rfl
        | internalC cs =>
          dsimp only
          cases hch : cs.get? ((i >>> level) &&& shiftBitMask) with
          | none => rfl
          | some oa =>
            cases oa with
            | none => rfl
            | some child =>
              exact ih (level - shiftSize) child i (by simp only [shiftSize]; omega)
                (hwf _ (List.get?_mem hc) child
                  (List.mem_filterMap.mpr ⟨some child, List.get?_mem hch, rfl⟩))
    · rw [hSliceForNode.eq_def, hSliceForNode.eq_def, if_neg h0, if_neg h0,
        heap_get_append H tl a ha]

/-- `Get` on a well-formed heap is unchanged by extending the heap. -/
theorem hGet_agree {T : Type} (H H2 : Heap T) (v : HVec T) (j : Int)
    (hwf : WFHeap H) (hroot : v.root < H.length) (hext : StoreExt H H2) :
    hGet H2 v j = hGet H v j := by
  obtain ⟨tl, rfl⟩ := hext
  rw [hGet.eq_def, hGet.eq_def]
  by_cases hb : j < 0 ∨ v.len ≤ j.toNat
  · rw [if_pos hb, if_pos hb]
  · rw [if_neg hb, if_neg hb]
    simp only [hSliceFor]
    by_cases ht : j.toNat ≥ hTailOffset v
    · rw [if_pos ht, if_pos ht]
    · rw [if_neg ht, if_neg ht,
        hSliceForNode_agree H tl hwf v.shift v.shift v.root j.toNat (le_refl _) hroot]

/-- Go `Vector.Len` over the heap (reads only the handle). -/
def hLen {T : Type} (H : Heap T) (v : HVec T) : Int :=
  let _ := H
  (v.len : Int)

/-- C1: persistence of vector handles.  Over a well-formed heap, `Set`
and `Append` only extend the heap with freshly allocated cells, so for
every index j the old handle's `Get` returns the same result in the new
heap as in the old one, and its `Len` is unchanged. -/
theorem claim_C1_persistence {T : Type} [Inhabited T] (H : Heap T) (v : HVec T)
    (i j : Int) (x : T) (items : List T)
    (hwf : WFHeap H) (hroot : v.root < H.length) :
    (∀ H2 r, hSet H v i x = (H2, r) →
      StoreExt H H2 ∧ hGet H2 v j = hGet H v j ∧ hLen H2 v = hLen H v) ∧
    (∀ H2 r, hAppend H v items = (H2, r) →
      StoreExt H H2 ∧ hGet H2 v j = hGet H v j ∧ hLen H2 v = hLen H v) := by
  constructor
  · intro H2 r heq
    have hext : StoreExt H H2 := by
      have h1 := hSet_ext H v i x
      rwa [heq] at h1
    exact ⟨hext, hGet_agree H H2 v j hwf hroot hext, rfl⟩
  · intro H2 r heq
    have hext : StoreExt H H2 := by
      have h1 := hAppend_ext H v items
      rwa [heq] at h1
    exact ⟨hext, hGet_agree H H2 v j hwf hroot hext, rfl⟩

/-- A one-element vector over a heap holding the empty root node. -/
def exampleHeap : Heap Nat := [HCell.internalC []]

def exampleHVec : HVec Nat := { tail := [5], root := 0, len := 1, shift := shiftSize }

theorem exampleHeap_wf : WFHeap exampleHeap := by
  intro c hc b hb
  simp only [exampleHeap, List.mem_singleton] at hc
  subst hc
  simp [cellAddrs] at hb

theorem claim_C1_persistence_witness :
    (∀ H2 r, hSet exampleHeap exampleHVec 0 9 = (H2, r) →
        StoreExt exampleHeap H2 ∧
          hGet H2 exampleHVec 0 = hGet exampleHeap exampleHVec 0 ∧
          hLen H2 exampleHVec = hLen exampleHeap exampleHVec) ∧
    (∀ H2 r, hAppend exampleHeap exampleHVec [7] = (H2, r) →
        StoreExt exampleHeap H2 ∧
          hGet H2 exampleHVec 0 = hGet exampleHeap exampleHVec 0 ∧
          hLen H2 exampleHVec = hLen exampleHeap exampleHVec) :=
  claim_C1_persistence exampleHeap exampleHVec 0 0 9 [7] exampleHeap_wf (by decide)

end Peds
